import Mathlib

/-!
# rxlib: the management layer around the RandomX hashing VM

A shallow embedding of `src/randomx/RandomX/rxlib/rxlib.cpp`.

* Process globals (`dataset`, `vm`, `atomic_nonce`) are explicit state.
* The RandomX library itself (allocation, the pipelined hash calls, the
  difficulty check) is external to rxlib; it enters as oracles.
* Undefined behaviour of the C++ program (out-of-bounds access, division by
  zero, signed overflow) and exhausted fuel are both `none`.
* Fields marked "ghost" are not program state: they only log what the program did.
-/

namespace Rxlib

/-! ## Machine integers -/

/-- Reading of a size as a C `int` (the conversion done by `return vm.size();`). -/
def toInt32 (n : Nat) : Int :=
  if n % 4294967296 < 2147483648 then ((n % 4294967296 : Nat) : Int)
  else ((n % 4294967296 : Nat) : Int) - 4294967296

/-- Conversion of a C `int` to `uint32_t` (usual arithmetic conversions in
`items / init_threads`). -/
def toUInt32 (i : Int) : Nat := (i % 4294967296).toNat

/-! ## Dataset and VM pool (rx_add_thread, rx_remove_thread, init_rxlib) -/

/-- The dataset object behind the global pointer `dataset`; what the model keeps of
it is whether its memory is large-page-backed. -/
structure randomx_dataset where
  large_pages : Bool
deriving DecidableEq, Repr

/-- A VM handle: `id` is the serial number of the allocation that produced it (its
identity as a pointer), `large_pages` the flags it was created with, `dataset` the
dataset pointer passed to `randomx_create_vm`. -/
structure randomx_vm where
  id : Nat
  large_pages : Bool
  dataset : Option randomx_dataset
deriving DecidableEq, Repr

/-- The file-level statics `dataset` and `vm`, with two ghost fields: the number of
allocation requests made so far and the handles passed to `randomx_destroy_vm`. -/
structure Globals where
  dataset : Option randomx_dataset
  vm : List randomx_vm
  allocs : Nat
  destroyed : List randomx_vm
deriving DecidableEq, Repr

/-- Modelled from the spec: `randomx_alloc_dataset` of the RandomX library. The
oracle `alloc k` tells whether the k-th allocation request of the process is served;
`large` is the presence of RANDOMX_FLAG_LARGE_PAGES in the flags. -/
def randomx_alloc_dataset (alloc : Nat → Bool) (g : Globals) (large : Bool) :
    Option randomx_dataset × Globals :=
  (if alloc g.allocs then some ⟨large⟩ else none, { g with allocs := g.allocs + 1 })

/-- Modelled from the spec: `randomx_create_vm(flags, nullptr, dataset)` of the RandomX
library, with the same allocation oracle; the handle is bound to the current value of
the global `dataset`. -/
def randomx_create_vm (alloc : Nat → Bool) (g : Globals) (large : Bool) :
    Option randomx_vm × Globals :=
  (if alloc g.allocs then some ⟨g.allocs, large, g.dataset⟩ else none,
   { g with allocs := g.allocs + 1 })

/-- The two creation attempts shared by `rx_add_thread` and the loop of `init_rxlib`:
large pages first, then the standard flags. -/
def create_vm_with_fallback (alloc : Nat → Bool) (g : Globals) : Option randomx_vm × Globals :=
  let a := randomx_create_vm alloc g true
  match a.1 with
  | some v => (some v, a.2)
  | none => randomx_create_vm alloc a.2 false

/-- `vm.push_back(v)`. -/
def push_back (g : Globals) (v : randomx_vm) : Globals := { g with vm := g.vm ++ [v] }

/-- `rx_add_thread`. -/
def rx_add_thread (alloc : Nat → Bool) (g : Globals) : Int × Globals :=
  let a := create_vm_with_fallback alloc g
  match a.1 with
  | none => (-1, a.2)
  | some v => (toInt32 (push_back a.2 v).vm.length, push_back a.2 v)

/-- `rx_remove_thread`. -/
def rx_remove_thread (g : Globals) : Int × Globals :=
  if g.vm.length ≤ 1 then (-1, g)
  else
    let g1 : Globals :=
      { g with vm := g.vm.dropLast, destroyed := g.destroyed ++ g.vm.getLast?.toList }
    (toInt32 g1.vm.length, g1)

/-- The dataset part of `init_rxlib` (lines 117-133): `none` in the first component is
the `return -1`, otherwise it is the local `hugepages_success`. -/
def init_rxlib_dataset (alloc : Nat → Bool) (g : Globals) : Option Bool × Globals :=
  match g.dataset with
  | some _ => (some false, g)
  | none =>
    let a := randomx_alloc_dataset alloc g true
    match a.1 with
    | some d => (some true, { a.2 with dataset := some d })
    | none =>
      let b := randomx_alloc_dataset alloc a.2 false
      match b.1 with
      | some d => (some false, { b.2 with dataset := some d })
      | none => (none, b.2)

/-- The loop `for (int i=0; i<threads; ++i)` of `init_rxlib`, run for the remaining
number of iterations; `false` is the `return -1` inside the loop. -/
def init_rxlib_loop (alloc : Nat → Bool) : Nat → Globals → Bool × Globals
  | 0, g => (true, g)
  | n + 1, g =>
    let a := create_vm_with_fallback alloc g
    match a.1 with
    | none => (false, a.2)
    | some v => init_rxlib_loop alloc n (push_back a.2 v)

/-- `init_rxlib`. The loop runs `threads` times when `threads` is positive and not at
all otherwise. -/
def init_rxlib (alloc : Nat → Bool) (g : Globals) (threads : Int) : Int × Globals :=
  let a := init_rxlib_dataset alloc g
  match a.1 with
  | none => (-1, a.2)
  | some hugepages_success =>
    let b := if a.2.vm.length = 0 then init_rxlib_loop alloc threads.toNat a.2 else (true, a.2)
    if b.1 then (if hugepages_success then 1 else 2, b.2) else (-1, b.2)

/-- A pool operation, for sequences of resize calls. -/
inductive PoolOp where
  | add
  | remove
deriving DecidableEq, Repr

/-- Run a sequence of `rx_add_thread` / `rx_remove_thread` calls. -/
def run_pool_ops (alloc : Nat → Bool) : List PoolOp → Globals → Globals
  | [], g => g
  | PoolOp.add :: ops, g => run_pool_ops alloc ops (rx_add_thread alloc g).2
  | PoolOp.remove :: ops, g => run_pool_ops alloc ops (rx_remove_thread g).2

/-! ## Nonce sequencer -/

/-- `atomic_nonce.fetch_add(1)` on the shared `std::atomic<uint32_t>`: the value
returned and the new value of the counter. -/
def atomic_fetch_add (c : Nat) : Nat × Nat := (c, (c + 1) % 4294967296)

/-- Initial value of the counter: `static std::atomic<uint32_t> atomic_nonce(1);`. -/
def atomic_nonce_init : Nat := 1

/-- Requests issued in the order given by an interleaving (the identity of the thread
behind each request); every request is one `atomic_fetch_add`. The result lists, in
the same order, each requesting thread with the value it received. -/
def issue_nonces : List Nat → Nat → List (Nat × Nat)
  | [], _ => []
  | t :: sched, c => (t, (atomic_fetch_add c).1) :: issue_nonces sched (atomic_fetch_add c).2

/-! ## Search loop (do_hashing, rx_hash_until) -/

/-- A byte buffer. -/
abbrev Bytes := List Nat

/-- Modelled from the spec: `store32` of the RandomX sources writes the 32-bit value as
four bytes, least significant first, at the given offset of a buffer (the nonce field
of the blob at offset 39). -/
def store32 (buf : Bytes) (off w : Nat) : Bytes :=
  (((buf.set off (w % 256)).set (off + 1) (w / 256 % 256)).set (off + 2)
    (w / 65536 % 256)).set (off + 3) (w / 16777216 % 256)

/-- Everything outside one call of the search loop: the hash computed by the VM for an
input (under the current dataset), the difficulty check, the successive values read
from the Stop Flag, how many `fetch_add` requests other threads place before each
request of this call, and what each VM call does to the floating-point environment. -/
structure Ext (F : Type) where
  hash : Bytes → Bytes
  check_hash_64 : Bytes → Nat → Bool
  stop : Nat → Nat
  others : Nat → Nat
  fp : Nat → F → F

/-- Memory seen by one call of the search loop. `pending` is the input held by the
pipeline of the VM handle in use; `nonce_output` is the 32-bit word held by the first
four bytes of the caller's nonce buffer. Ghost: `fetches`, `loads`, `vmcalls` count the
requests made so far, `evals` logs the output of every hash evaluation and `submitted`
every nonce written into the blob, both in order. -/
structure St (F : Type) where
  atomic_nonce : Nat
  fenv : F
  pending : Bytes
  blob : Bytes
  hash_output : Bytes
  nonce_output : Nat
  fetches : Nat
  loads : Nat
  vmcalls : Nat
  evals : List Bytes
  submitted : List Nat

/-- The `return` statement through which `do_hashing` was left. -/
inductive Path where
  | match_in_loop
  | match_after_stop
  | stopped
deriving DecidableEq, Repr

/-- `atomic_nonce.fetch_add(1)` as seen by the searching thread: the requests of the
other threads that come first, then its own. -/
def fetch_nonce {F : Type} (E : Ext F) (s : St F) : Nat × St F :=
  let c := (fun c => (atomic_fetch_add c).2)^[E.others s.fetches] s.atomic_nonce
  ((atomic_fetch_add c).1,
   { s with atomic_nonce := (atomic_fetch_add c).2, fetches := s.fetches + 1 })

/-- `store32(noncePtr, nonce)` with `noncePtr = blob + 39`. -/
def store_nonce {F : Type} (s : St F) (nonce : Nat) : St F :=
  { s with blob := store32 s.blob 39 nonce, submitted := s.submitted ++ [nonce] }

/-- Modelled from the spec: `randomx_calculate_hash_first(vm, blob, len)`, the begin
call: stores its input, produces no output. -/
def randomx_calculate_hash_first {F : Type} (E : Ext F) (s : St F) (len : Nat) : St F :=
  { s with pending := s.blob.take len, fenv := E.fp s.vmcalls s.fenv,
           vmcalls := s.vmcalls + 1 }

/-- Modelled from the spec: `randomx_calculate_hash_next(vm, blob, len, hash_output)`,
the advance call: outputs the hash of the stored input and stores the new one. -/
def randomx_calculate_hash_next {F : Type} (E : Ext F) (s : St F) (len : Nat) : St F :=
  { s with hash_output := E.hash s.pending, evals := s.evals ++ [E.hash s.pending],
           pending := s.blob.take len, fenv := E.fp s.vmcalls s.fenv,
           vmcalls := s.vmcalls + 1 }

/-- Modelled from the spec: `randomx_calculate_hash_last(vm, hash_output)`, the finish
call: outputs the hash of the stored input. -/
def randomx_calculate_hash_last {F : Type} (E : Ext F) (s : St F) : St F :=
  { s with hash_output := E.hash s.pending, evals := s.evals ++ [E.hash s.pending],
           fenv := E.fp s.vmcalls s.fenv, vmcalls := s.vmcalls + 1 }

/-- `stop->load()`. -/
def load_stop {F : Type} (E : Ext F) (s : St F) : Nat × St F :=
  (E.stop s.loads, { s with loads := s.loads + 1 })

/-- Largest `int64_t`; `hashes++` beyond it is undefined. -/
def INT64_MAX : Int := 9223372036854775807

/-- The `do ... while (!stop->load())` loop of `do_hashing` together with the code
after it (lines 174-195), started at the top of the loop body with the locals `nonce`
and `hashes`. One unit of fuel is one execution of the loop body. -/
def do_hashing_loop {F : Type} (E : Ext F) (len difficulty : Nat) :
    Nat → St F → Nat → Int → Option (Int × Path × St F)
  | 0, _, _, _ => none
  | fuel + 1, s, nonce, hashes =>
    let prevnonce := nonce
    let a := fetch_nonce E s
    let nonce := a.1
    let s := store_nonce a.2 nonce
    let s := randomx_calculate_hash_next E s len
    if INT64_MAX ≤ hashes then none
    else
      let hashes := hashes + 1
      if E.check_hash_64 s.hash_output difficulty then
        some (hashes, Path.match_in_loop, { s with nonce_output := prevnonce })
      else
        let b := load_stop E s
        if b.1 = 0 then do_hashing_loop E len difficulty fuel b.2 nonce hashes
        else
          let s := randomx_calculate_hash_last E b.2
          if INT64_MAX ≤ hashes then none
          else
            let hashes := hashes + 1
            if E.check_hash_64 s.hash_output difficulty then
              some (hashes, Path.match_after_stop, { s with nonce_output := nonce })
            else some (-hashes, Path.stopped, s)

/-- `do_hashing`. The blob must hold the nonce field (bytes 39..42) and `len` bytes for
the VM to read. -/
def do_hashing {F : Type} (E : Ext F) (fuel : Nat) (s : St F) (len difficulty : Nat) :
    Option (Int × Path × St F) :=
  if s.blob.length < 43 ∨ s.blob.length < len then none
  else
    let hashes : Int := 0
    let a := fetch_nonce E s
    let nonce := a.1
    let s := store_nonce a.2 nonce
    let s := randomx_calculate_hash_first E s len
    do_hashing_loop E len difficulty fuel s nonce hashes

/-- `rx_hash_until`: `fegetenv`, the private copy of the first `len` bytes of the
caller's blob, `do_hashing` on `vm[thread]`, `fesetenv`. -/
def rx_hash_until {F : Type} (E : Ext F) (fuel : Nat) (vm : List randomx_vm) (s : St F)
    (blob : Bytes) (len difficulty : Nat) (thread : Int) : Option (Int × Path × St F) :=
  let fpstate := s.fenv
  if blob.length < len then none
  else
    let s := { s with blob := blob.take len }
    if thread < 0 ∨ (vm.length : Int) ≤ thread then none
    else
      match do_hashing E fuel s len difficulty with
      | none => none
      | some r => some (r.1, r.2.1, { r.2.2 with fenv := fpstate })

/-! ### Concrete instances -/

/-- A toy environment: the hash is the byte sum of the input, a hash passes when it
equals `target`, the Stop Flag reads 1 from reading `stop_from` on, no other thread
takes nonces, and the k-th VM call adds `k + 1` to the floating-point environment. -/
def demo_ext (target stop_from : Nat) : Ext Nat where
  hash := fun b => [b.sum % 256]
  check_hash_64 := fun h _ => h == [target]
  stop := fun k => if stop_from ≤ k then 1 else 0
  others := fun _ => 0
  fp := fun k e => e + k + 1

/-- A blob of 43 zero bytes, the counter at its initial value, empty logs. -/
def demo_state : St Nat where
  atomic_nonce := atomic_nonce_init
  fenv := 0
  pending := []
  blob := List.replicate 43 0
  hash_output := []
  nonce_output := 0
  fetches := 0
  loads := 0
  vmcalls := 0
  evals := []
  submitted := []

/-! ### An interleaving as seen by one search loop -/

/-- In the interleaving `sched` (the search loop behind each request on the counter, in
order), the number of requests of other loops that come before request `k` of loop `t`
and after its request `k - 1`. -/
def others_of (t : Nat) : List Nat → Nat → Nat
  | [], _ => 0
  | x :: xs, 0 => if x = t then 0 else others_of t xs 0 + 1
  | x :: xs, k + 1 => if x = t then others_of t xs k else others_of t xs (k + 1)

/-- The place, among all requests on the counter, of request `j` of a loop that sees
`others k` foreign requests before its request `k`. -/
def request_position (others : Nat → Nat) : Nat → Nat
  | 0 => others 0
  | j + 1 => request_position others j + 1 + others (j + 1)

/-- The toy environment of search loop `t` inside the interleaving `sched`. -/
def demo_ext_sched (target stop_from : Nat) (sched : List Nat) (t : Nat) : Ext Nat where
  hash := fun b => [b.sum % 256]
  check_hash_64 := fun h _ => h == [target]
  stop := fun k => if stop_from ≤ k then 1 else 0
  others := fun k => others_of t sched k
  fp := fun k e => e + k + 1

/-! ## Dataset seeding (seed_rxlib) -/

/-- The RandomX calls used by `seed_rxlib`: the result of `randomx_alloc_cache`
(`none` is `nullptr`), `randomx_init_cache`, the content of a dataset item as a
function of the cache and the item index, and `randomx_dataset_item_count()`. -/
structure SeedExt (C α : Type) where
  alloc_cache : Option C
  init_cache : C → Bytes → C
  item : C → Nat → α
  item_count : Nat

/-- Modelled from the spec: `randomx_init_dataset(dataset, cache, startItem, itemCount)`
of the RandomX library writes every item of its range as a function of the cache and the
item index only. -/
def randomx_init_dataset {C α : Type} (item : C → Nat → α) (mem : Nat → α) (cache : C)
    (startItem itemCount : Nat) : Nat → α :=
  fun i => if startItem ≤ i ∧ i < startItem + itemCount then item cache i else mem i

/-- The loop `for (int i = 0; i < init_threads; ++i)` of `seed_rxlib`, run for the
remaining number of iterations; it collects the `(startItem, count)` pair handed to each
worker. `count` and `startItem` are `uint32_t`. -/
def seed_loop (t_items remainder : Nat) (init_threads : Int) :
    Nat → Int → Nat → List (Nat × Nat) → List (Nat × Nat)
  | 0, _, _, thread => thread
  | n + 1, i, startItem, thread =>
    let count := (t_items + (if i = init_threads - 1 then remainder else 0)) % 4294967296
    seed_loop t_items remainder init_threads n (i + 1) ((startItem + count) % 4294967296)
      (thread ++ [(startItem, count)])

/-- Outcome of `seed_rxlib`: the returned flag, the dataset memory, and (ghost) the
ranges passed to `randomx_init_dataset`. -/
structure SeedResult (α : Type) where
  ret : Bool
  mem : Nat → α
  calls : List (Nat × Nat)

/-- The effect of a list of `randomx_init_dataset` calls, applied in list order. -/
def run_init_calls {C α : Type} (item : C → Nat → α) (cache : C) (calls : List (Nat × Nat))
    (mem : Nat → α) : Nat → α :=
  calls.foldl (fun m c => randomx_init_dataset item m cache c.1 c.2) mem

/-- `seed_rxlib` on an allocated dataset with memory `mem`. `none` is the division by
zero of `items / init_threads`. The workers of the parallel branch are run in the order
in which they were started. -/
def seed_rxlib {C α : Type} (X : SeedExt C α) (mem : Nat → α) (seed_hash : Bytes) (len : Nat)
    (init_threads : Int) : Option (SeedResult α) :=
  match X.alloc_cache with
  | none => some ⟨false, mem, []⟩
  | some cache =>
    let cache := X.init_cache cache (seed_hash.take len)
    let items := X.item_count % 4294967296
    if init_threads = 1 then
      some ⟨true, randomx_init_dataset X.item mem cache 0 items, [(0, items)]⟩
    else if toUInt32 init_threads = 0 then none
    else
      let t_items := items / toUInt32 init_threads
      let remainder := items % toUInt32 init_threads
      let calls := seed_loop t_items remainder init_threads init_threads.toNat 0 0 []
      some ⟨true, run_init_calls X.item cache calls mem, calls⟩

/-- The chunking in the words of the specification: `k` contiguous chunks starting at
item 0, each of `items / k` items, the last one taking the remainder `items % k` as
well. -/
def spec_chunks (items k : Nat) : List (Nat × Nat) :=
  (List.range k).map
    (fun j => (j * (items / k), if j + 1 = k then items / k + items % k else items / k))

/-- A toy RandomX for seeding: the cache is the byte sum of the seed, item `i` is the
cache value plus `i`, and the dataset has 10 items. -/
def demo_seed_ext (cache_ok : Bool) : SeedExt Nat Nat where
  alloc_cache := if cache_ok then some 0 else none
  init_cache := fun _ seed => seed.sum
  item := fun c i => c + i
  item_count := 10


/-! ## Pool: helper lemmas -/

theorem toInt32_of_lt (n : Nat) (h : n < 2147483648) : toInt32 n = (n : Int) := by
  unfold toInt32
  have h1 : n % 4294967296 = n := Nat.mod_eq_of_lt (by omega)
  rw [h1, if_pos h]

theorem create_vm_with_fallback_globals (alloc : Nat → Bool) (g : Globals) :
    (create_vm_with_fallback alloc g).2.vm = g.vm ∧
    (create_vm_with_fallback alloc g).2.dataset = g.dataset ∧
    (create_vm_with_fallback alloc g).2.destroyed = g.destroyed := by
  unfold create_vm_with_fallback randomx_create_vm
  by_cases h : alloc g.allocs = true <;> simp [h]

theorem create_vm_with_fallback_bound (alloc : Nat → Bool) (g : Globals) (v : randomx_vm)
    (h : (create_vm_with_fallback alloc g).1 = some v) : v.dataset = g.dataset := by
  unfold create_vm_with_fallback randomx_create_vm at h
  by_cases h1 : alloc g.allocs = true
  · simp [h1] at h
    rw [← h]
  · by_cases h2 : alloc (g.allocs + 1) = true
    · simp [h1, h2] at h
      rw [← h]
    · simp [h1, h2] at h

theorem rx_add_thread_length (alloc : Nat → Bool) (g : Globals) :
    g.vm.length ≤ (rx_add_thread alloc g).2.vm.length := by
  unfold rx_add_thread
  have h := (create_vm_with_fallback_globals alloc g).1
  cases hc : (create_vm_with_fallback alloc g).1 with
  | none => simp only [hc, h]; exact le_refl _
  | some v => simp [hc, push_back, h]

theorem rx_remove_thread_length (g : Globals) (h : 1 ≤ g.vm.length) :
    1 ≤ (rx_remove_thread g).2.vm.length := by
  unfold rx_remove_thread
  by_cases h1 : g.vm.length ≤ 1
  · simp [h1, h]
  · simp [h1]
    omega

theorem run_pool_ops_length (alloc : Nat → Bool) (ops : List PoolOp) :
    ∀ g : Globals, 1 ≤ g.vm.length → 1 ≤ (run_pool_ops alloc ops g).vm.length := by
  induction ops with
  | nil => intro g h; simpa [run_pool_ops] using h
  | cons op ops ih =>
    intro g h
    cases op with
    | add =>
      simp only [run_pool_ops]
      exact ih _ (le_trans h (rx_add_thread_length alloc g))
    | remove =>
      simp only [run_pool_ops]
      exact ih _ (rx_remove_thread_length g h)

theorem init_rxlib_loop_ok (alloc : Nat → Bool) (n : Nat) :
    ∀ g g1 : Globals, init_rxlib_loop alloc n g = (true, g1) →
      g1.vm.length = g.vm.length + n ∧ g1.dataset = g.dataset ∧
      ∀ v ∈ g1.vm, v ∈ g.vm ∨ v.dataset = g.dataset := by
  induction n with
  | zero =>
    intro g g1 h
    simp only [init_rxlib_loop, Prod.mk.injEq, true_and] at h
    subst h
    exact ⟨rfl, rfl, fun v hv => Or.inl hv⟩
  | succ n ih =>
    intro g g1 h
    simp only [init_rxlib_loop] at h
    have hg := create_vm_with_fallback_globals alloc g
    cases hc : (create_vm_with_fallback alloc g).1 with
    | none => simp [hc] at h
    | some v =>
      rw [hc] at h
      simp only at h
      obtain ⟨h1, h2, h3⟩ := ih _ _ h
      have hb := create_vm_with_fallback_bound alloc g v hc
      refine ⟨?_, ?_, ?_⟩
      · simp [push_back, hg.1] at h1
        omega
      · simpa [push_back, hg.2.1] using h2
      · intro w hw
        rcases h3 w hw with h4 | h4
        · simp only [push_back, hg.1, List.mem_append, List.mem_singleton] at h4
          rcases h4 with h4 | h4
          · exact Or.inl h4
          · exact Or.inr (h4 ▸ hb)
        · right
          simpa [push_back, hg.2.1] using h4

theorem init_rxlib_dataset_globals (alloc : Nat → Bool) (g : Globals) :
    (init_rxlib_dataset alloc g).2.vm = g.vm := by
  unfold init_rxlib_dataset randomx_alloc_dataset
  cases hd : g.dataset with
  | some d => simp
  | none =>
    by_cases h1 : alloc g.allocs = true
    · simp [h1]
    · by_cases h2 : alloc (g.allocs + 1) = true <;> simp [h1, h2]

theorem init_rxlib_dataset_some (alloc : Nat → Bool) (g : Globals) (b : Bool)
    (h : (init_rxlib_dataset alloc g).1 = some b) :
    (init_rxlib_dataset alloc g).2.dataset ≠ none := by
  unfold init_rxlib_dataset randomx_alloc_dataset at h ⊢
  cases hd : g.dataset with
  | some d => simp [hd]
  | none =>
    by_cases h1 : alloc g.allocs = true
    · simp [h1]
    · by_cases h2 : alloc (g.allocs + 1) = true
      · simp [h1, h2]
      · simp [hd, h1, h2] at h


/-! ## Pool: the claims -/

/-- C6: `rx_remove_thread` returns -1 and leaves the globals unchanged exactly when the
pool holds at most one handle; otherwise it removes (and destroys) exactly the last
handle, keeping the others in order, and the returned `int` is the new size, the old
size minus one, whenever that size is representable as an `int`. On a pool of size 1 it
fails and the size stays 1, and no sequence of `rx_add_thread` / `rx_remove_thread`
calls takes a pool of size at least 1 below size 1. -/
theorem rx_remove_thread_spec (g : Globals) :
    (((rx_remove_thread g).1 = -1 ∧ (rx_remove_thread g).2 = g) ↔ g.vm.length ≤ 1) ∧
    (1 < g.vm.length →
      (∃ v, g.vm = (rx_remove_thread g).2.vm ++ [v] ∧
        (rx_remove_thread g).2.destroyed = g.destroyed ++ [v]) ∧
      (rx_remove_thread g).2.vm.length = g.vm.length - 1 ∧
      (rx_remove_thread g).2.dataset = g.dataset ∧
      (g.vm.length ≤ 2147483648 →
        (rx_remove_thread g).1 = (((rx_remove_thread g).2.vm.length : Nat) : Int) ∧
        (rx_remove_thread g).1 = (g.vm.length : Int) - 1)) ∧
    (g.vm.length = 1 →
      (rx_remove_thread g).1 = -1 ∧ (rx_remove_thread g).2.vm.length = 1) ∧
    (∀ (alloc : Nat → Bool) (ops : List PoolOp), 1 ≤ g.vm.length →
      1 ≤ (run_pool_ops alloc ops g).vm.length) := by
  refine ⟨?_, ?_, ?_, ?_⟩
  · constructor
    · rintro ⟨_, h2⟩
      by_contra hlt
      have h3 : (rx_remove_thread g).2.vm.length = g.vm.length := by rw [h2]
      simp [rx_remove_thread, hlt] at h3
      omega
    · intro h
      simp [rx_remove_thread, h]
  · intro h
    have hne : g.vm ≠ [] := by
      intro h0
      simp [h0] at h
    have hnot : ¬ g.vm.length ≤ 1 := by omega
    refine ⟨⟨g.vm.getLast hne, ?_, ?_⟩, ?_, ?_, ?_⟩
    · simp [rx_remove_thread, hnot, List.dropLast_append_getLast hne]
    · simp [rx_remove_thread, hnot, List.getLast?_eq_getLast _ hne]
    · simp [rx_remove_thread, hnot]
    · simp [rx_remove_thread, hnot]
    · intro hb
      have h1 : toInt32 (g.vm.length - 1) = ((g.vm.length - 1 : Nat) : Int) :=
        toInt32_of_lt _ (by omega)
      simp only [rx_remove_thread, hnot, if_false, List.length_dropLast, h1, true_and]
      omega
  · intro h
    simp [rx_remove_thread, h]
  · intro alloc ops h
    exact run_pool_ops_length alloc ops g h

/-- C6, instance: a pool of three handles shrinks to its first two and reports 2. -/
theorem rx_remove_thread_spec_witness :
    (1 : Nat) < (Globals.mk none [⟨0, true, none⟩, ⟨1, true, none⟩, ⟨2, false, none⟩] 3 []).vm.length ∧
    (rx_remove_thread ⟨none, [⟨0, true, none⟩, ⟨1, true, none⟩, ⟨2, false, none⟩], 3, []⟩).2.vm.length
      = 2 :=
  ⟨by decide,
   ((rx_remove_thread_spec
      ⟨none, [⟨0, true, none⟩, ⟨1, true, none⟩, ⟨2, false, none⟩], 3, []⟩).2.1 (by decide)).2.1⟩

/-- C7, the code at a repeated call: with every allocation served, the first
`init_rxlib(1)` allocates a large-page-backed dataset and returns 1; a second
`init_rxlib(1)` finds the dataset allocated, keeps it (still large-page-backed) and
returns 2, the status documented as "success, but no huge pages". -/
theorem init_rxlib_repeated_call_status :
    (init_rxlib (fun _ => true) ⟨none, [], 0, []⟩ 1).1 = 1 ∧
    (init_rxlib (fun _ => true) (init_rxlib (fun _ => true) ⟨none, [], 0, []⟩ 1).2 1).1 = 2 ∧
    (init_rxlib (fun _ => true) (init_rxlib (fun _ => true) ⟨none, [], 0, []⟩ 1).2 1).2.dataset
      = some ⟨true⟩ := by
  decide

/-- C8, as stated, fails for a negative thread count: `init_rxlib(-1)` on the initial
state succeeds with status 1 and leaves the pool empty, so the pool does not hold
`threadCount` handles. -/
theorem init_rxlib_negative_threads :
    (init_rxlib (fun _ => true) ⟨none, [], 0, []⟩ (-1)).1 = 1 ∧
    (init_rxlib (fun _ => true) ⟨none, [], 0, []⟩ (-1)).2.vm = [] ∧
    (((init_rxlib (fun _ => true) ⟨none, [], 0, []⟩ (-1)).2.vm.length : Nat) : Int) ≠ -1 := by
  decide

/-- C8, amended: when `init_rxlib(threads)` returns 1 or 2, a pool that was empty holds
afterwards exactly `threads` handles if `threads` is positive and none otherwise, each
bound to the (allocated) dataset; a pool that was populated is unchanged. -/
theorem init_rxlib_pool (alloc : Nat → Bool) (g : Globals) (threads : Int)
    (h : (init_rxlib alloc g threads).1 = 1 ∨ (init_rxlib alloc g threads).1 = 2) :
    (g.vm = [] →
      (init_rxlib alloc g threads).2.vm.length = threads.toNat ∧
      (0 ≤ threads → (((init_rxlib alloc g threads).2.vm.length : Nat) : Int) = threads) ∧
      (init_rxlib alloc g threads).2.dataset ≠ none ∧
      ∀ v ∈ (init_rxlib alloc g threads).2.vm,
        v.dataset = (init_rxlib alloc g threads).2.dataset) ∧
    (g.vm ≠ [] → (init_rxlib alloc g threads).2.vm = g.vm) := by
  have hvm := init_rxlib_dataset_globals alloc g
  unfold init_rxlib at h ⊢
  cases hd : (init_rxlib_dataset alloc g).1 with
  | none => simp [hd] at h
  | some b =>
    have hsome := init_rxlib_dataset_some alloc g b hd
    simp only [hd] at h ⊢
    by_cases he : g.vm = []
    · have hl : (init_rxlib_dataset alloc g).2.vm.length = 0 := by simp [hvm, he]
      simp only [hl, if_true] at h ⊢
      cases hloop : init_rxlib_loop alloc threads.toNat (init_rxlib_dataset alloc g).2 with
      | mk ok g1 =>
        rw [hloop] at h
        simp only at h ⊢
        cases ok with
        | false => simp at h
        | true =>
          obtain ⟨h1, h2, h3⟩ := init_rxlib_loop_ok alloc _ _ _ hloop
          simp only [if_true]
          refine ⟨fun _ => ⟨?_, ?_, ?_, ?_⟩, fun hne => absurd he hne⟩
          · omega
          · intro hpos
            rw [h1, hl]
            omega
          · rw [h2]
            exact hsome
          · intro v hv
            rcases h3 v hv with h4 | h4
            · have h5 : (init_rxlib_dataset alloc g).2.vm = [] := by rw [hvm, he]
              rw [h5] at h4
              simp at h4
            · rw [h4, h2]
    · have hl : ¬ (init_rxlib_dataset alloc g).2.vm.length = 0 := by
        simpa [hvm] using he
      simp only [hl, if_false, if_true]
      exact ⟨fun h0 => absurd h0 he, fun _ => hvm⟩

/-- C8, amended, instance: `init_rxlib(2)` on the initial state with the large-page
allocations refused. -/
theorem init_rxlib_pool_witness :
    (init_rxlib (fun k => k % 2 == 1) ⟨none, [], 0, []⟩ 2).1 = 2 ∧
    (init_rxlib (fun k => k % 2 == 1) ⟨none, [], 0, []⟩ 2).2.vm.length = 2 :=
  ⟨by decide,
   ((init_rxlib_pool (fun k => k % 2 == 1) ⟨none, [], 0, []⟩ 2 (Or.inr (by decide))).1 rfl).1⟩


/-! ## Nonce sequencer -/

theorem issue_nonces_length (sched : List Nat) :
    ∀ c : Nat, (issue_nonces sched c).length = sched.length := by
  induction sched with
  | nil => intro c; rfl
  | cons t sched ih => intro c; simp [issue_nonces, ih]

theorem issue_nonces_value (sched : List Nat) :
    ∀ (c i : Nat), c < 4294967296 → i < sched.length →
      ((issue_nonces sched c)[i]?).map Prod.snd = some ((c + i) % 4294967296) := by
  induction sched with
  | nil => intro c i _ hi; simp at hi
  | cons t sched ih =>
    intro c i hc hi
    cases i with
    | zero =>
      simp [issue_nonces, atomic_fetch_add, Nat.mod_eq_of_lt hc]
    | succ i =>
      have hi1 : i < sched.length := by simpa using hi
      have h := ih ((c + 1) % 4294967296) i (Nat.mod_lt _ (by decide)) hi1
      simp only [issue_nonces, atomic_fetch_add, List.getElem?_cons_succ]
      rw [h]
      congr 1
      omega

/-! ## Search loop: helper lemmas -/

theorem store32_length (buf : Bytes) (off w : Nat) : (store32 buf off w).length = buf.length := by
  simp [store32]

theorem store32_store32 (buf : Bytes) (off a c : Nat) :
    store32 (store32 buf off a) off c = store32 buf off c := by
  apply List.ext_getElem?
  intro i
  simp only [store32, List.getElem?_set, List.length_set]
  by_cases h0 : off = i <;> by_cases h1 : off + 1 = i <;> by_cases h2 : off + 2 = i <;>
    by_cases h3 : off + 3 = i <;> simp [h0, h1, h2, h3]


/-- One execution of the loop body up to the advance call. -/
theorem loop_step_state {F : Type} (E : Ext F) (len : Nat) (s : St F) :
    ∃ (n1 : Nat) (s1 : St F), (fetch_nonce E s).1 = n1 ∧
    randomx_calculate_hash_next E (store_nonce (fetch_nonce E s).2 n1) len = s1 ∧
    s1.blob = store32 s.blob 39 n1 ∧ s1.pending = (store32 s.blob 39 n1).take len ∧
    s1.hash_output = E.hash s.pending ∧ s1.evals = s.evals ++ [E.hash s.pending] ∧
    s1.submitted = s.submitted ++ [n1] ∧ s1.nonce_output = s.nonce_output ∧
    s1.loads = s.loads ∧ s1.vmcalls = s.vmcalls + 1 + 0 ∧ s1.fenv = E.fp s.vmcalls s.fenv := by
  refine ⟨_, _, rfl, rfl, ?_⟩
  simp [randomx_calculate_hash_next, store_nonce, fetch_nonce]

/-- What holds when the loop of `do_hashing` returns, for a loop entered with the blob
and the pipeline holding `nonce`, `hashes` evaluations logged so far and none of them
passing. -/
theorem do_hashing_loop_post {F : Type} (E : Ext F) (len d : Nat) (blob0 : Bytes)
    (ev0 : List Bytes) (sub0 : List Nat) (no0 : Nat) :
    ∀ (fuel : Nat) (s : St F) (nonce : Nat) (hashes : Int) (ret : Int) (path : Path)
      (s1 : St F) (new : List Bytes) (pre : List Nat),
      do_hashing_loop E len d fuel s nonce hashes = some (ret, path, s1) →
      s.blob = store32 blob0 39 nonce → s.pending = (store32 blob0 39 nonce).take len →
      s.evals = ev0 ++ new → hashes = (new.length : Int) →
      (∀ h ∈ new, E.check_hash_64 h d = false) →
      s.submitted = sub0 ++ pre ++ [nonce] → s.nonce_output = no0 →
      ∃ earlier : List Bytes,
        s1.evals = ev0 ++ earlier ++ [s1.hash_output] ∧
        ret.natAbs = earlier.length + 1 ∧
        (∀ h ∈ earlier, E.check_hash_64 h d = false) ∧
        (path = Path.match_in_loop →
          0 < ret ∧ E.check_hash_64 s1.hash_output d = true ∧
          s1.hash_output = E.hash ((store32 blob0 39 s1.nonce_output).take len) ∧
          ∃ (pre1 : List Nat) (m : Nat),
            s1.submitted = sub0 ++ pre1 ++ [s1.nonce_output, m] ∧
            s1.blob = store32 blob0 39 m) ∧
        (path = Path.match_after_stop →
          0 < ret ∧ E.check_hash_64 s1.hash_output d = true ∧
          s1.hash_output = E.hash ((store32 blob0 39 s1.nonce_output).take len) ∧
          ∃ pre1 : List Nat,
            s1.submitted = sub0 ++ pre1 ++ [s1.nonce_output] ∧
            s1.blob = store32 blob0 39 s1.nonce_output) ∧
        (path = Path.stopped →
          ret < 0 ∧ E.check_hash_64 s1.hash_output d = false ∧ s1.nonce_output = no0) := by
  intro fuel
  induction fuel with
  | zero =>
    intro s nonce hashes ret path s1 new pre h
    simp [do_hashing_loop] at h
  | succ fuel ih =>
    intro s nonce hashes ret path s1 new pre h hblob hpend hev hh hfail hsub hno
    obtain ⟨n1, t, hn1, ht, q1, q2, q3, q4, q5, q6, -, -, -⟩ := loop_step_state E len s
    simp only [do_hashing_loop] at h
    simp only [hn1, ht] at h
    rw [hblob, store32_store32] at q1 q2
    have hnn : (0 : Int) ≤ hashes := by rw [hh]; exact Int.natCast_nonneg _
    by_cases hov : INT64_MAX ≤ hashes
    · simp [hov] at h
    · rw [if_neg hov] at h
      by_cases hc : E.check_hash_64 t.hash_output d = true
      · rw [if_pos hc] at h
        simp only [Option.some.injEq, Prod.mk.injEq] at h
        obtain ⟨hr, hp, hs⟩ := h
        subst hr hp hs
        refine ⟨new, ?_, ?_, hfail, ?_, ?_, ?_⟩
        · simp [q4, q3, hev]
        · rw [hh]; omega
        · intro _
          refine ⟨by omega, hc, ?_, pre, n1, ?_, ?_⟩
          · simp [q3, hpend]
          · simp [q5, hsub]
          · simpa using q1
        · intro hp; cases hp
        · intro hp; cases hp
      · have hcf : E.check_hash_64 t.hash_output d = false := by simpa using hc
        rw [if_neg hc] at h
        have hfail1 : ∀ h ∈ new ++ [t.hash_output], E.check_hash_64 h d = false := by
          intro x hx
          rcases List.mem_append.mp hx with hx | hx
          · exact hfail x hx
          · rw [List.mem_singleton.mp hx]; exact hcf
        by_cases hst : (load_stop E t).1 = 0
        · rw [if_pos hst] at h
          have := ih (load_stop E t).2 n1 (hashes + 1) ret path s1 (new ++ [t.hash_output])
            (pre ++ [nonce]) h (by simpa [load_stop] using q1) (by simpa [load_stop] using q2)
            (by simp [load_stop, q4, q3, hev]) (by simp [hh]) hfail1
            (by simp [load_stop, q5, hsub]) (by simp [load_stop, q6, hno])
          exact this
        · rw [if_neg hst] at h
          by_cases hov1 : INT64_MAX ≤ hashes + 1
          · simp [hov1] at h
          · rw [if_neg hov1] at h
            have e1 : (randomx_calculate_hash_last E (load_stop E t).2).hash_output
                = E.hash ((store32 blob0 39 n1).take len) := by
              simp [randomx_calculate_hash_last, load_stop, q2]
            have e2 : (randomx_calculate_hash_last E (load_stop E t).2).evals
                = ev0 ++ (new ++ [t.hash_output]) ++ [E.hash ((store32 blob0 39 n1).take len)] := by
              simp [randomx_calculate_hash_last, load_stop, q2, q4, q3, hev]
            have e3 : (randomx_calculate_hash_last E (load_stop E t).2).submitted
                = sub0 ++ (pre ++ [nonce]) ++ [n1] := by
              simp [randomx_calculate_hash_last, load_stop, q5, hsub]
            have e4 : (randomx_calculate_hash_last E (load_stop E t).2).blob
                = store32 blob0 39 n1 := by
              simp [randomx_calculate_hash_last, load_stop, q1]
            have e5 : (randomx_calculate_hash_last E (load_stop E t).2).nonce_output = no0 := by
              simp [randomx_calculate_hash_last, load_stop, q6, hno]
            generalize randomx_calculate_hash_last E (load_stop E t).2 = u at h e1 e2 e3 e4 e5
            by_cases hc2 : E.check_hash_64 u.hash_output d = true
            · rw [if_pos hc2] at h
              simp only [Option.some.injEq, Prod.mk.injEq] at h
              obtain ⟨hr, hp, hs⟩ := h
              subst hr hp hs
              refine ⟨new ++ [t.hash_output], ?_, ?_, hfail1, ?_, ?_, ?_⟩
              · simp [e2, e1]
              · simp only [List.length_append, List.length_singleton]; rw [hh]; omega
              · intro hp; cases hp
              · intro _
                refine ⟨by omega, hc2, ?_, pre ++ [nonce], ?_, ?_⟩
                · simpa using e1
                · simpa using e3
                · simpa using e4
              · intro hp; cases hp
            · have hcf2 : E.check_hash_64 u.hash_output d = false := by simpa using hc2
              rw [if_neg hc2] at h
              simp only [Option.some.injEq, Prod.mk.injEq] at h
              obtain ⟨hr, hp, hs⟩ := h
              subst hr hp hs
              refine ⟨new ++ [t.hash_output], ?_, ?_, hfail1, ?_, ?_, ?_⟩
              · simp [e2, e1]
              · simp only [List.length_append, List.length_singleton]; rw [hh]; omega
              · intro hp; cases hp
              · intro hp; cases hp
              · intro _
                exact ⟨by omega, hcf2, e5⟩


/-- The loop returns once a reading of the Stop Flag is non-zero, provided the fuel
covers the iterations up to that reading and the counter stays within `int64_t`. -/
theorem do_hashing_loop_returns {F : Type} (E : Ext F) (len d : Nat) :
    ∀ (k fuel : Nat) (s : St F) (nonce : Nat) (hashes : Int),
      E.stop (s.loads + k) ≠ 0 → k < fuel → hashes + k + 2 ≤ INT64_MAX →
      ∃ r, do_hashing_loop E len d fuel s nonce hashes = some r := by
  intro k
  induction k with
  | zero =>
    intro fuel s nonce hashes hstop hfuel hbound
    obtain ⟨f, rfl⟩ : ∃ f, fuel = f + 1 := ⟨fuel - 1, by omega⟩
    obtain ⟨n1, t, hn1, ht, -, -, -, -, -, -, q7, -, -⟩ := loop_step_state E len s
    simp only [do_hashing_loop]
    simp only [hn1, ht]
    have hov : ¬ INT64_MAX ≤ hashes := by simp only [INT64_MAX] at hbound ⊢; omega
    have hov1 : ¬ INT64_MAX ≤ hashes + 1 := by simp only [INT64_MAX] at hbound ⊢; omega
    have hst : ¬ (load_stop E t).1 = 0 := by simpa [load_stop, q7] using hstop
    rw [if_neg hov]
    by_cases hc : E.check_hash_64 t.hash_output d = true
    · rw [if_pos hc]; exact ⟨_, rfl⟩
    · rw [if_neg hc, if_neg hst, if_neg hov1]
      by_cases hc2 : E.check_hash_64 (randomx_calculate_hash_last E (load_stop E t).2).hash_output d
          = true
      · rw [if_pos hc2]; exact ⟨_, rfl⟩
      · rw [if_neg hc2]; exact ⟨_, rfl⟩
  | succ k ih =>
    intro fuel s nonce hashes hstop hfuel hbound
    obtain ⟨f, rfl⟩ : ∃ f, fuel = f + 1 := ⟨fuel - 1, by omega⟩
    obtain ⟨n1, t, hn1, ht, -, -, -, -, -, -, q7, -, -⟩ := loop_step_state E len s
    simp only [do_hashing_loop]
    simp only [hn1, ht]
    have hov : ¬ INT64_MAX ≤ hashes := by simp only [INT64_MAX] at hbound ⊢; omega
    have hov1 : ¬ INT64_MAX ≤ hashes + 1 := by simp only [INT64_MAX] at hbound ⊢; omega
    rw [if_neg hov]
    by_cases hc : E.check_hash_64 t.hash_output d = true
    · rw [if_pos hc]; exact ⟨_, rfl⟩
    · rw [if_neg hc]
      by_cases hst : (load_stop E t).1 = 0
      · rw [if_pos hst]
        apply ih
        · have : (load_stop E t).2.loads + k = s.loads + (k + 1) := by
            simp only [load_stop, q7]; omega
          rw [this]; exact hstop
        · omega
        · push_cast at hbound ⊢; omega
      · rw [if_neg hst, if_neg hov1]
        by_cases hc2 : E.check_hash_64 (randomx_calculate_hash_last E (load_stop E t).2).hash_output
            d = true
        · rw [if_pos hc2]; exact ⟨_, rfl⟩
        · rw [if_neg hc2]; exact ⟨_, rfl⟩

/-- State at the entry of the loop of `do_hashing`. -/
theorem do_hashing_entry {F : Type} (E : Ext F) (len : Nat) (s : St F) :
    ∃ (n0 : Nat) (s0 : St F), (fetch_nonce E s).1 = n0 ∧
    randomx_calculate_hash_first E (store_nonce (fetch_nonce E s).2 n0) len = s0 ∧
    s0.blob = store32 s.blob 39 n0 ∧ s0.pending = (store32 s.blob 39 n0).take len ∧
    s0.evals = s.evals ++ [] ∧ s0.submitted = s.submitted ++ [] ++ [n0] ∧
    s0.nonce_output = s.nonce_output ∧ s0.loads = s.loads := by
  refine ⟨_, _, rfl, rfl, ?_⟩
  simp [randomx_calculate_hash_first, store_nonce, fetch_nonce]

/-- What holds when `do_hashing` returns: the evaluations logged by the call are some
failing hashes followed by the final content of `hash_output`; the count is their
number, positive on the two match paths and negative on the stopped path. -/
theorem do_hashing_post {F : Type} (E : Ext F) (fuel : Nat) (s : St F) (len d : Nat)
    (ret : Int) (path : Path) (s1 : St F)
    (h : do_hashing E fuel s len d = some (ret, path, s1)) :
    ∃ earlier : List Bytes,
      s1.evals = s.evals ++ earlier ++ [s1.hash_output] ∧
      ret.natAbs = earlier.length + 1 ∧
      (∀ h ∈ earlier, E.check_hash_64 h d = false) ∧
      (path = Path.match_in_loop →
        0 < ret ∧ E.check_hash_64 s1.hash_output d = true ∧
        s1.hash_output = E.hash ((store32 s.blob 39 s1.nonce_output).take len) ∧
        ∃ (pre1 : List Nat) (m : Nat),
          s1.submitted = s.submitted ++ pre1 ++ [s1.nonce_output, m] ∧
          s1.blob = store32 s.blob 39 m) ∧
      (path = Path.match_after_stop →
        0 < ret ∧ E.check_hash_64 s1.hash_output d = true ∧
        s1.hash_output = E.hash ((store32 s.blob 39 s1.nonce_output).take len) ∧
        ∃ pre1 : List Nat,
          s1.submitted = s.submitted ++ pre1 ++ [s1.nonce_output] ∧
          s1.blob = store32 s.blob 39 s1.nonce_output) ∧
      (path = Path.stopped →
        ret < 0 ∧ E.check_hash_64 s1.hash_output d = false ∧
        s1.nonce_output = s.nonce_output) := by
  unfold do_hashing at h
  by_cases hg : s.blob.length < 43 ∨ s.blob.length < len
  · rw [if_pos hg] at h; cases h
  · rw [if_neg hg] at h
    obtain ⟨n0, s0, hn0, hs0, q1, q2, q3, q4, q5, -⟩ := do_hashing_entry E len s
    simp only [hn0, hs0] at h
    exact do_hashing_loop_post E len d s.blob s.evals s.submitted s.nonce_output fuel s0 n0 0
      ret path s1 [] [] h q1 q2 q3 rfl (by simp) q4 q5

/-- `do_hashing` returns once a reading of the Stop Flag is non-zero. -/
theorem do_hashing_returns {F : Type} (E : Ext F) (k : Nat) (s : St F) (len d : Nat)
    (hstop : E.stop (s.loads + k) ≠ 0) (hblob : 43 ≤ s.blob.length) (hlen : len ≤ s.blob.length)
    (hk : (k : Int) + 2 ≤ INT64_MAX) :
    ∃ r, do_hashing E (k + 1) s len d = some r := by
  unfold do_hashing
  have hg : ¬ (s.blob.length < 43 ∨ s.blob.length < len) := by omega
  rw [if_neg hg]
  obtain ⟨n0, s0, hn0, hs0, -, -, -, -, -, q6⟩ := do_hashing_entry E len s
  simp only [hn0, hs0]
  apply do_hashing_loop_returns E len d k
  · rw [q6]; exact hstop
  · omega
  · omega


/-- More fuel does not change what the loop returns. -/
theorem do_hashing_loop_fuel {F : Type} (E : Ext F) (len d : Nat) :
    ∀ (fuel : Nat) (s : St F) (nonce : Nat) (hashes : Int) (r : Int × Path × St F),
      do_hashing_loop E len d fuel s nonce hashes = some r →
      do_hashing_loop E len d (fuel + 1) s nonce hashes = some r := by
  intro fuel
  induction fuel with
  | zero =>
    intro s nonce hashes r h
    simp [do_hashing_loop] at h
  | succ fuel ih =>
    intro s nonce hashes r h
    obtain ⟨n1, t, hn1, ht, -⟩ := loop_step_state E len s
    rw [do_hashing_loop] at h ⊢
    simp only [hn1, ht] at h ⊢
    by_cases hov : INT64_MAX ≤ hashes
    · rw [if_pos hov] at h; cases h
    · rw [if_neg hov] at h ⊢
      by_cases hc : E.check_hash_64 t.hash_output d = true
      · rw [if_pos hc] at h ⊢; exact h
      · rw [if_neg hc] at h ⊢
        by_cases hst : (load_stop E t).1 = 0
        · rw [if_pos hst] at h ⊢
          exact ih _ _ _ _ h
        · rw [if_neg hst] at h ⊢; exact h

/-- More fuel does not change what `do_hashing` returns. -/
theorem do_hashing_fuel {F : Type} (E : Ext F) (s : St F) (len d : Nat) (fuel : Nat)
    (r : Int × Path × St F) (h : do_hashing E fuel s len d = some r) :
    ∀ j : Nat, do_hashing E (fuel + j) s len d = some r := by
  intro j
  induction j with
  | zero => exact h
  | succ j ih =>
    unfold do_hashing at ih ⊢
    by_cases hg : s.blob.length < 43 ∨ s.blob.length < len
    · rw [if_pos hg] at ih; cases ih
    · rw [if_neg hg] at ih ⊢
      exact do_hashing_loop_fuel E len d _ _ _ _ _ ih

/-! ## Search loop: the claims -/

/-- C1: whenever `do_hashing` returns, the absolute value of the returned count is the
number of hash evaluations the call performed (the outputs it logged, one per advance
call and one for the finish call), the count is never zero, it is positive exactly when
one of the evaluated hashes passed `check_hash_64` and negative exactly when none did.
Moreover `do_hashing` does return as soon as some reading of the Stop Flag is non-zero
(the blob holding the nonce field and `len` bytes, the count within `int64_t`), and what
it returns does not depend on the fuel. -/
theorem do_hashing_count {F : Type} (E : Ext F) (s : St F) (len d : Nat) :
    (∀ (fuel : Nat) (ret : Int) (path : Path) (s1 : St F),
      do_hashing E fuel s len d = some (ret, path, s1) →
      ∃ new : List Bytes,
        s1.evals = s.evals ++ new ∧ ret.natAbs = new.length ∧ ret ≠ 0 ∧
        (0 < ret ↔ ∃ h ∈ new, E.check_hash_64 h d = true) ∧
        (ret < 0 ↔ ∀ h ∈ new, E.check_hash_64 h d = false)) ∧
    (∀ k : Nat, E.stop (s.loads + k) ≠ 0 → 43 ≤ s.blob.length → len ≤ s.blob.length →
      (k : Int) + 2 ≤ INT64_MAX → ∃ r, do_hashing E (k + 1) s len d = some r) ∧
    (∀ (fuel j : Nat) (r : Int × Path × St F),
      do_hashing E fuel s len d = some r → do_hashing E (fuel + j) s len d = some r) := by
  refine ⟨?_, fun k h1 h2 h3 h4 => do_hashing_returns E k s len d h1 h2 h3 h4,
    fun fuel j r h => do_hashing_fuel E s len d fuel r h j⟩
  intro fuel ret path s1 h
  obtain ⟨earlier, hev, habs, hfail, hin, hafter, hstopped⟩ := do_hashing_post E fuel s len d ret path s1 h
  have hne : ret ≠ 0 := by
    intro h0
    rw [h0] at habs
    simp at habs
  have hall : (∀ x ∈ earlier ++ [s1.hash_output], E.check_hash_64 x d = false) ↔
      E.check_hash_64 s1.hash_output d = false := by
    constructor
    · intro hx
      exact hx _ (by simp)
    · intro hx x hmem
      rcases List.mem_append.mp hmem with hm | hm
      · exact hfail x hm
      · rw [List.mem_singleton.mp hm]; exact hx
  have hex : (∃ x ∈ earlier ++ [s1.hash_output], E.check_hash_64 x d = true) ↔
      E.check_hash_64 s1.hash_output d = true := by
    constructor
    · rintro ⟨x, hmem, hx⟩
      rcases List.mem_append.mp hmem with hm | hm
      · rw [hfail x hm] at hx; cases hx
      · rw [List.mem_singleton.mp hm] at hx; exact hx
    · intro hx
      exact ⟨_, by simp, hx⟩
  refine ⟨earlier ++ [s1.hash_output], by simp [hev], by simp [habs], hne, ?_, ?_⟩
  · rw [hex]
    cases path with
    | match_in_loop => exact ⟨fun _ => (hin rfl).2.1, fun _ => (hin rfl).1⟩
    | match_after_stop => exact ⟨fun _ => (hafter rfl).2.1, fun _ => (hafter rfl).1⟩
    | stopped =>
      obtain ⟨h1, h2, -⟩ := hstopped rfl
      constructor
      · intro h3; omega
      · intro h3; rw [h2] at h3; cases h3
  · rw [hall]
    cases path with
    | match_in_loop =>
      obtain ⟨h1, h2, -⟩ := hin rfl
      constructor
      · intro h3; omega
      · intro h3; rw [h2] at h3; cases h3
    | match_after_stop =>
      obtain ⟨h1, h2, -⟩ := hafter rfl
      constructor
      · intro h3; omega
      · intro h3; rw [h2] at h3; cases h3
    | stopped => exact ⟨fun _ => (hstopped rfl).2.1, fun _ => (hstopped rfl).1⟩

/-- C1, instance: with the flag set from its second reading on and no passing hash, the
call on the toy environment evaluates three hashes and returns -3. -/
theorem do_hashing_count_witness :
    ∃ s1 : St Nat, do_hashing (demo_ext 0 1) 2 demo_state 43 1 = some (-3, Path.stopped, s1) ∧
      ∃ new : List Bytes, s1.evals = demo_state.evals ++ new ∧ (-3 : Int).natAbs = new.length :=
  ⟨_, rfl,
    match (do_hashing_count (demo_ext 0 1) demo_state 43 1).1 2 (-3) Path.stopped _ rfl with
    | ⟨new, h1, h2, _⟩ => ⟨new, h1, h2⟩⟩


/-- C2: when `do_hashing` returns a positive count, the word `n` left in `nonce_output`
and the bytes left in `hash_output` satisfy: `hash_output` is the hash of (the first
`len` bytes of) the private blob with `n` stored at offset 39, and it passes
`check_hash_64` for the given difficulty. The return is one of the two match paths: on
the in-loop match `n` is the nonce submitted before the last one, and the blob holds
that last one; on the match after the stop signal `n` is the last nonce submitted and
the blob holds it. Every hash evaluated before the winning one failed the check. -/
theorem do_hashing_winner {F : Type} (E : Ext F) (fuel : Nat) (s : St F) (len d : Nat)
    (ret : Int) (path : Path) (s1 : St F)
    (h : do_hashing E fuel s len d = some (ret, path, s1)) (hpos : 0 < ret) :
    s1.hash_output = E.hash ((store32 s.blob 39 s1.nonce_output).take len) ∧
    E.check_hash_64 s1.hash_output d = true ∧
    (path = Path.match_in_loop ∨ path = Path.match_after_stop) ∧
    (path = Path.match_in_loop →
      ∃ (pre : List Nat) (m : Nat),
        s1.submitted = s.submitted ++ pre ++ [s1.nonce_output, m] ∧
        s1.blob = store32 s.blob 39 m) ∧
    (path = Path.match_after_stop →
      ∃ pre : List Nat,
        s1.submitted = s.submitted ++ pre ++ [s1.nonce_output] ∧
        s1.blob = store32 s.blob 39 s1.nonce_output) ∧
    ∃ earlier : List Bytes,
      s1.evals = s.evals ++ earlier ++ [s1.hash_output] ∧
      ∀ x ∈ earlier, E.check_hash_64 x d = false := by
  obtain ⟨earlier, hev, -, hfail, hin, hafter, hstopped⟩ :=
    do_hashing_post E fuel s len d ret path s1 h
  cases path with
  | match_in_loop =>
    obtain ⟨-, h2, h3, h4⟩ := hin rfl
    exact ⟨h3, h2, Or.inl rfl, fun _ => h4, fun hp => Path.noConfusion hp, earlier, hev, hfail⟩
  | match_after_stop =>
    obtain ⟨-, h2, h3, h4⟩ := hafter rfl
    exact ⟨h3, h2, Or.inr rfl, fun hp => Path.noConfusion hp, fun _ => h4, earlier, hev, hfail⟩
  | stopped =>
    obtain ⟨h1, -⟩ := hstopped rfl
    omega

/-- C2, instance: on the toy environment with target 3 the third evaluation wins inside
the loop; the winner is nonce 3 while the blob already holds nonce 4. -/
theorem do_hashing_winner_witness :
    ∃ s1 : St Nat,
      do_hashing (demo_ext 3 100) 5 demo_state 43 1 = some (3, Path.match_in_loop, s1) ∧
      s1.nonce_output = 3 ∧ s1.submitted = [1, 2, 3, 4] ∧
      s1.hash_output = (demo_ext 3 100).hash ((store32 demo_state.blob 39 s1.nonce_output).take 43) :=
  ⟨_, rfl, rfl, rfl,
    (do_hashing_winner (demo_ext 3 100) 5 demo_state 43 1 3 Path.match_in_loop _ rfl
      (by decide)).1⟩

/-- C3, as stated, fails: with the Stop Flag non-zero at every reading and no passing
hash, `do_hashing` on the toy environment evaluates two hashes (one advance call, then
the finish call) and returns -2, not -1. -/
theorem do_hashing_stop_preset :
    (∀ k, (demo_ext 0 0).stop k ≠ 0) ∧
    (do_hashing (demo_ext 0 0) 1 demo_state 43 1).map (fun r => (r.1, r.2.1, r.2.2.evals))
      = some (-2, Path.stopped, [[1], [2]]) ∧
    (∀ x ∈ [[1], [2]], (demo_ext 0 0).check_hash_64 x 1 = false) := by
  refine ⟨fun k => ?_, by decide, by decide⟩
  simp [demo_ext]

/-- C3, amended: if the Stop Flag is non-zero at its first reading, `do_hashing` returns
(with any positive fuel) after one advance evaluation, of the first nonce `n0`, and, when
that hash fails, one finish evaluation, of the second nonce `n1`: it returns 1 when the
first hash passes, 2 when only the second passes, and -2 after exactly two evaluations
when neither passes. -/
theorem do_hashing_stop_at_first_reading {F : Type} (E : Ext F) (fuel : Nat) (s : St F)
    (len d : Nat) (hstop : E.stop s.loads ≠ 0) (hblob : 43 ≤ s.blob.length)
    (hlen : len ≤ s.blob.length) :
    ∃ (ret : Int) (path : Path) (s1 : St F) (n0 n1 : Nat),
      do_hashing E (fuel + 1) s len d = some (ret, path, s1) ∧
      s1.submitted = s.submitted ++ [n0, n1] ∧
      (E.check_hash_64 (E.hash ((store32 s.blob 39 n0).take len)) d = true →
        ret = 1 ∧ path = Path.match_in_loop ∧
        s1.evals = s.evals ++ [E.hash ((store32 s.blob 39 n0).take len)]) ∧
      (E.check_hash_64 (E.hash ((store32 s.blob 39 n0).take len)) d = false →
        s1.evals = s.evals ++ [E.hash ((store32 s.blob 39 n0).take len),
          E.hash ((store32 s.blob 39 n1).take len)] ∧
        (E.check_hash_64 (E.hash ((store32 s.blob 39 n1).take len)) d = true →
          ret = 2 ∧ path = Path.match_after_stop) ∧
        (E.check_hash_64 (E.hash ((store32 s.blob 39 n1).take len)) d = false →
          ret = -2 ∧ path = Path.stopped)) := by
  have hg : ¬ (s.blob.length < 43 ∨ s.blob.length < len) := by omega
  obtain ⟨n0, s0, hn0, hs0, a1, a2, a3, a4, -, a6⟩ := do_hashing_entry E len s
  obtain ⟨n1, t, hn1, ht, q1, q2, q3, q4, q5, -, q7, -, -⟩ := loop_step_state E len s0
  rw [a1, store32_store32] at q1 q2
  have hst : ¬ (load_stop E t).1 = 0 := by simpa [load_stop, q7, a6] using hstop
  have hov0 : ¬ INT64_MAX ≤ (0 : Int) := by decide
  have hov1 : ¬ INT64_MAX ≤ (0 : Int) + 1 := by decide
  have e1 : (randomx_calculate_hash_last E (load_stop E t).2).hash_output
      = E.hash ((store32 s.blob 39 n1).take len) := by
    simp [randomx_calculate_hash_last, load_stop, q2]
  have e2 : (randomx_calculate_hash_last E (load_stop E t).2).evals
      = s.evals ++ [E.hash ((store32 s.blob 39 n0).take len),
          E.hash ((store32 s.blob 39 n1).take len)] := by
    simp [randomx_calculate_hash_last, load_stop, q2, q4, a2, a3]
  have e3 : (randomx_calculate_hash_last E (load_stop E t).2).submitted
      = s.submitted ++ [n0, n1] := by
    simp [randomx_calculate_hash_last, load_stop, q5, a4]
  have e4 : t.hash_output = E.hash ((store32 s.blob 39 n0).take len) := by rw [q3, a2]
  have e5 : t.evals = s.evals ++ [E.hash ((store32 s.blob 39 n0).take len)] := by
    rw [q4, a2, a3]; simp
  have e6 : t.submitted = s.submitted ++ [n0, n1] := by rw [q5, a4]; simp
  unfold do_hashing
  rw [if_neg hg]
  simp only [hn0, hs0, do_hashing_loop]
  simp only [hn1, ht]
  rw [if_neg hov0]
  by_cases hc : E.check_hash_64 t.hash_output d = true
  · rw [if_pos hc]
    rw [e4] at hc
    refine ⟨_, _, _, n0, n1, rfl, e6, fun _ => ⟨by simp, rfl, e5⟩, fun hf => ?_⟩
    rw [hc] at hf; cases hf
  · rw [if_neg hc, if_neg hst, if_neg hov1]
    rw [e4] at hc
    by_cases hc2 : E.check_hash_64 (randomx_calculate_hash_last E (load_stop E t).2).hash_output d
        = true
    · rw [if_pos hc2]
      rw [e1] at hc2
      refine ⟨_, _, _, n0, n1, rfl, e3, fun hp => absurd hp hc, fun _ => ⟨e2, ?_, ?_⟩⟩
      · intro _; exact ⟨by simp, rfl⟩
      · intro hf; rw [hc2] at hf; cases hf
    · rw [if_neg hc2]
      rw [e1] at hc2
      refine ⟨_, _, _, n0, n1, rfl, e3, fun hp => absurd hp hc, fun _ => ⟨e2, ?_, ?_⟩⟩
      · intro hp; exact absurd hp hc2
      · intro _; exact ⟨by simp, rfl⟩

/-- C3, amended, instance: the toy environment with the flag set from the start. -/
theorem do_hashing_stop_at_first_reading_witness :
    (demo_ext 0 0).stop demo_state.loads ≠ 0 ∧
    ∃ (ret : Int) (path : Path) (s1 : St Nat) (n0 n1 : Nat),
      do_hashing (demo_ext 0 0) (0 + 1) demo_state 43 1 = some (ret, path, s1) ∧
      s1.submitted = demo_state.submitted ++ [n0, n1] :=
  ⟨by decide,
    match do_hashing_stop_at_first_reading (demo_ext 0 0) 0 demo_state 43 1 (by decide)
      (by decide) (by decide) with
    | ⟨ret, path, s1, n0, n1, h1, h2, _⟩ => ⟨ret, path, s1, n0, n1, h1, h2⟩⟩


/-- C9: with the floating-point environment as explicit state that every VM call may
change, every return of `rx_hash_until` (in-loop match, match on the finishing hash,
stopped without a match) leaves the environment equal to the one at the call; and the
call does return, with the environment restored, once some reading of the Stop Flag is
non-zero (a blob of `len >= 43` bytes, a valid pool slot, the count within `int64_t`). -/
theorem rx_hash_until_fenv {F : Type} (E : Ext F) (vm : List randomx_vm) (s : St F)
    (blob : Bytes) (len d : Nat) (thread : Int) :
    (∀ (fuel : Nat) (ret : Int) (path : Path) (s1 : St F),
      rx_hash_until E fuel vm s blob len d thread = some (ret, path, s1) →
      s1.fenv = s.fenv) ∧
    (∀ k : Nat, E.stop (s.loads + k) ≠ 0 → 43 ≤ len → len ≤ blob.length →
      0 ≤ thread → thread < (vm.length : Int) → (k : Int) + 2 ≤ INT64_MAX →
      ∃ (ret : Int) (path : Path) (s1 : St F),
        rx_hash_until E (k + 1) vm s blob len d thread = some (ret, path, s1) ∧
        s1.fenv = s.fenv) := by
  constructor
  · intro fuel ret path s1 h
    unfold rx_hash_until at h
    by_cases h1 : blob.length < len
    · rw [if_pos h1] at h; cases h
    · rw [if_neg h1] at h
      by_cases h2 : thread < 0 ∨ (vm.length : Int) ≤ thread
      · simp only [h2, if_true] at h; cases h
      · simp only [h2, if_false] at h
        cases hd : do_hashing E fuel { s with blob := blob.take len } len d with
        | none => rw [hd] at h; cases h
        | some r =>
          rw [hd] at h
          simp only [Option.some.injEq, Prod.mk.injEq] at h
          obtain ⟨-, -, h3⟩ := h
          rw [← h3]
  · intro k hstop h43 hlen h0 hthread hk
    have h1 : ¬ blob.length < len := by omega
    have h2 : ¬ (thread < 0 ∨ (vm.length : Int) ≤ thread) := by omega
    have hl : (blob.take len).length = len := by simp [List.length_take]; omega
    obtain ⟨r, hr⟩ := do_hashing_returns E k { s with blob := blob.take len } len d hstop
      (by simp only [hl]; exact h43) (by simp only [hl]; exact le_refl _) hk
    refine ⟨r.1, r.2.1, { r.2.2 with fenv := s.fenv }, ?_, rfl⟩
    unfold rx_hash_until
    rw [if_neg h1]
    simp only [h2, if_false, hr]

/-- C9, instance: on the toy environment the VM calls move the environment from 0 to 10
inside `do_hashing`, and `rx_hash_until` hands it back as 0, on each of the three return
paths. -/
theorem rx_hash_until_fenv_witness :
    (do_hashing (demo_ext 3 100) 5 demo_state 43 1).map (fun r => r.2.2.fenv) = some 10 ∧
    (rx_hash_until (demo_ext 3 100) 5 [⟨0, true, none⟩] demo_state (List.replicate 43 0) 43 1 0).map
      (fun r => (r.1, r.2.1, r.2.2.fenv)) = some (3, Path.match_in_loop, 0) ∧
    (rx_hash_until (demo_ext 3 1) 5 [⟨0, true, none⟩] demo_state (List.replicate 43 0) 43 1 0).map
      (fun r => (r.1, r.2.1, r.2.2.fenv)) = some (3, Path.match_after_stop, 0) ∧
    (rx_hash_until (demo_ext 0 1) 5 [⟨0, true, none⟩] demo_state (List.replicate 43 0) 43 1 0).map
      (fun r => (r.1, r.2.1, r.2.2.fenv)) = some (-3, Path.stopped, 0) ∧
    ∃ s1 : St Nat,
      rx_hash_until (demo_ext 0 1) 5 [⟨0, true, none⟩] demo_state (List.replicate 43 0) 43 1 0
        = some (-3, Path.stopped, s1) ∧ s1.fenv = demo_state.fenv :=
  ⟨rfl, rfl, rfl, rfl, _, rfl,
    (rx_hash_until_fenv (demo_ext 0 1) [⟨0, true, none⟩] demo_state (List.replicate 43 0) 43 1
      0).1 5 (-3) Path.stopped _ rfl⟩

/-! ## Nonce sequencer and search loops -/

theorem issue_nonces_get (sched : List Nat) :
    ∀ (c i t : Nat), c < 4294967296 → sched[i]? = some t →
      (issue_nonces sched c)[i]? = some (t, (c + i) % 4294967296) := by
  induction sched with
  | nil => intro c i t _ hi; simp at hi
  | cons x sched ih =>
    intro c i t hc hi
    cases i with
    | zero =>
      simp only [List.getElem?_cons_zero, Option.some.injEq] at hi
      simp [issue_nonces, atomic_fetch_add, Nat.mod_eq_of_lt hc, hi]
    | succ i =>
      simp only [List.getElem?_cons_succ] at hi
      have h := ih ((c + 1) % 4294967296) i t (Nat.mod_lt _ (by decide)) hi
      simp only [issue_nonces, atomic_fetch_add, List.getElem?_cons_succ]
      rw [h]
      congr 2
      omega

theorem foreign_requests (k : Nat) :
    ∀ y : Nat, (fun c => (atomic_fetch_add c).2)^[k] (y % 4294967296)
      = (y + k) % 4294967296 := by
  induction k with
  | zero => intro y; rfl
  | succ k ih =>
    intro y
    rw [Function.iterate_succ_apply]
    have h1 : (atomic_fetch_add (y % 4294967296)).2 = (y + 1) % 4294967296 := by
      simp only [atomic_fetch_add]; omega
    rw [h1, ih (y + 1)]
    congr 1
    omega

theorem request_position_cons_self (t : Nat) (xs : List Nat) (j : Nat) :
    request_position (others_of t (t :: xs)) (j + 1)
      = request_position (others_of t xs) j + 1 := by
  induction j with
  | zero => simp only [request_position, others_of, if_true]; omega
  | succ j ih =>
    rw [request_position, ih]
    simp only [request_position, others_of, if_true]
    cases j with
    | zero => simp only [request_position]; omega
    | succ j => simp only [request_position]; omega

theorem request_position_cons_other (t x : Nat) (xs : List Nat) (hx : ¬ x = t) (j : Nat) :
    request_position (others_of t (x :: xs)) j = request_position (others_of t xs) j + 1 := by
  induction j with
  | zero => simp [request_position, others_of, hx]
  | succ j ih =>
    rw [request_position, ih]
    simp only [request_position, others_of, hx, if_false]
    omega

theorem request_position_owner (t : Nat) :
    ∀ (sched : List Nat) (j : Nat), j < sched.count t →
      sched[request_position (others_of t sched) j]? = some t := by
  intro sched
  induction sched with
  | nil => intro j hj; simp at hj
  | cons x xs ih =>
    intro j hj
    by_cases hx : x = t
    · subst hx
      cases j with
      | zero => simp [request_position, others_of]
      | succ j =>
        rw [request_position_cons_self, List.getElem?_cons_succ]
        apply ih
        simpa using hj
    · rw [request_position_cons_other t x xs hx, List.getElem?_cons_succ]
      apply ih
      have : (x == t) = false := by simpa using hx
      simpa [List.count_cons, this] using hj

theorem request_position_lt (others : Nat → Nat) (i j : Nat) (h : i < j) :
    request_position others i < request_position others j := by
  induction j with
  | zero => omega
  | succ j ih =>
    simp only [request_position]
    by_cases hij : i = j
    · subst hij; omega
    · have := ih (by omega); omega

/-- One execution of the loop body up to the advance call: the counter and the nonce. -/
theorem loop_step_counter {F : Type} (E : Ext F) (len : Nat) (s : St F) :
    ∃ (n1 : Nat) (s1 : St F), (fetch_nonce E s).1 = n1 ∧
    randomx_calculate_hash_next E (store_nonce (fetch_nonce E s).2 n1) len = s1 ∧
    n1 = (fun c => (atomic_fetch_add c).2)^[E.others s.fetches] s.atomic_nonce ∧
    s1.atomic_nonce = (n1 + 1) % 4294967296 ∧ s1.fetches = s.fetches + 1 ∧
    s1.submitted = s.submitted ++ [n1] := by
  refine ⟨_, _, rfl, rfl, ?_⟩
  simp [randomx_calculate_hash_next, store_nonce, fetch_nonce, atomic_fetch_add]

/-- The nonces written into the blob by the loop of `do_hashing` are the values the
counter holds at the places of the loop's own requests. -/
theorem do_hashing_loop_nonces {F : Type} (E : Ext F) (len d c f0 : Nat) (sub0 : List Nat) :
    ∀ (fuel : Nat) (s : St F) (nonce : Nat) (hashes : Int) (ret : Int) (path : Path)
      (s1 : St F) (f : Nat),
      do_hashing_loop E len d fuel s nonce hashes = some (ret, path, s1) →
      s.fetches = f0 + (f + 1) →
      s.atomic_nonce
        = (c + request_position (fun k => E.others (f0 + k)) f + 1) % 4294967296 →
      s.submitted = sub0 ++ (List.range (f + 1)).map
        (fun j => (c + request_position (fun k => E.others (f0 + k)) j) % 4294967296) →
      ∃ m : Nat, s1.submitted = sub0 ++ (List.range m).map
        (fun j => (c + request_position (fun k => E.others (f0 + k)) j) % 4294967296) := by
  intro fuel
  induction fuel with
  | zero =>
    intro s nonce hashes ret path s1 f h
    simp [do_hashing_loop] at h
  | succ fuel ih =>
    intro s nonce hashes ret path s1 f h hf hc hsub
    obtain ⟨n1, t, hn1, ht, q1, q2, q3, q4⟩ := loop_step_counter E len s
    simp only [do_hashing_loop] at h
    simp only [hn1, ht] at h
    have hn : n1 = (c + request_position (fun k => E.others (f0 + k)) (f + 1)) % 4294967296 := by
      rw [q1, hc, foreign_requests, hf]
      simp only [request_position]
      congr 1
      omega
    have hsub1 : t.submitted = sub0 ++ (List.range (f + 1 + 1)).map
        (fun j => (c + request_position (fun k => E.others (f0 + k)) j) % 4294967296) := by
      rw [q4, hsub, hn, List.range_succ (f + 1)]
      simp
    have hc1 : t.atomic_nonce
        = (c + request_position (fun k => E.others (f0 + k)) (f + 1) + 1) % 4294967296 := by
      rw [q2, hn]; omega
    by_cases hov : INT64_MAX ≤ hashes
    · rw [if_pos hov] at h; cases h
    · rw [if_neg hov] at h
      by_cases hck : E.check_hash_64 t.hash_output d = true
      · rw [if_pos hck] at h
        simp only [Option.some.injEq, Prod.mk.injEq] at h
        obtain ⟨-, -, hs⟩ := h
        subst hs
        exact ⟨f + 1 + 1, hsub1⟩
      · rw [if_neg hck] at h
        by_cases hst : (load_stop E t).1 = 0
        · rw [if_pos hst] at h
          exact ih (load_stop E t).2 n1 (hashes + 1) ret path s1 (f + 1) h
            (by simp only [load_stop, q3, hf]; omega) (by simpa [load_stop] using hc1)
            (by simpa [load_stop] using hsub1)
        · rw [if_neg hst] at h
          by_cases hov1 : INT64_MAX ≤ hashes + 1
          · rw [if_pos hov1] at h; cases h
          · rw [if_neg hov1] at h
            have e3 : (randomx_calculate_hash_last E (load_stop E t).2).submitted = t.submitted := by
              simp [randomx_calculate_hash_last, load_stop]
            by_cases hc2 : E.check_hash_64
                (randomx_calculate_hash_last E (load_stop E t).2).hash_output d = true
            · rw [if_pos hc2] at h
              simp only [Option.some.injEq, Prod.mk.injEq] at h
              obtain ⟨-, -, hs⟩ := h
              subst hs
              exact ⟨f + 1 + 1, by simpa [e3] using hsub1⟩
            · rw [if_neg hc2] at h
              simp only [Option.some.injEq, Prod.mk.injEq] at h
              obtain ⟨-, -, hs⟩ := h
              subst hs
              exact ⟨f + 1 + 1, by rw [e3]; exact hsub1⟩

/-- State of the counter at the entry of the loop of `do_hashing`. -/
theorem do_hashing_entry_counter {F : Type} (E : Ext F) (len : Nat) (s : St F) :
    ∃ (n0 : Nat) (s0 : St F), (fetch_nonce E s).1 = n0 ∧
    randomx_calculate_hash_first E (store_nonce (fetch_nonce E s).2 n0) len = s0 ∧
    n0 = (fun c => (atomic_fetch_add c).2)^[E.others s.fetches] s.atomic_nonce ∧
    s0.atomic_nonce = (n0 + 1) % 4294967296 ∧ s0.fetches = s.fetches + 1 ∧
    s0.submitted = s.submitted ++ [n0] := by
  refine ⟨_, _, rfl, rfl, ?_⟩
  simp [randomx_calculate_hash_first, store_nonce, fetch_nonce, atomic_fetch_add]

/-- The nonces written into the blob by a call of `do_hashing`, in order: request `j` of
the call receives the counter value at its place among all requests. -/
theorem do_hashing_nonces {F : Type} (E : Ext F) (fuel : Nat) (s : St F) (len d : Nat)
    (ret : Int) (path : Path) (s1 : St F) (hc : s.atomic_nonce < 4294967296)
    (h : do_hashing E fuel s len d = some (ret, path, s1)) :
    ∃ m : Nat, s1.submitted = s.submitted ++ (List.range m).map
      (fun j => (s.atomic_nonce + request_position (fun k => E.others (s.fetches + k)) j)
        % 4294967296) := by
  unfold do_hashing at h
  by_cases hg : s.blob.length < 43 ∨ s.blob.length < len
  · rw [if_pos hg] at h; cases h
  · rw [if_neg hg] at h
    obtain ⟨n0, s0, hn0, hs0, q1, q2, q3, q4⟩ := do_hashing_entry_counter E len s
    simp only [hn0, hs0] at h
    have hfr := foreign_requests (E.others s.fetches) s.atomic_nonce
    rw [Nat.mod_eq_of_lt hc] at hfr
    have hn : n0 = (s.atomic_nonce + request_position (fun k => E.others (s.fetches + k)) 0)
        % 4294967296 := by
      rw [q1, hfr]
      simp only [request_position, Nat.add_zero]
    exact do_hashing_loop_nonces E len d s.atomic_nonce s.fetches s.submitted fuel s0 n0 0 ret
      path s1 0 h (by rw [q3]) (by rw [q2, hn]; omega)
      (by rw [q4, hn]; simp [List.range_succ])

/-- In an interleaving `sched` started with the counter at `c`, a call of `do_hashing`
that is search loop `t` writes, at its request `j`, the very value that the sequencer
hands to `t` at the place of that request. -/
theorem do_hashing_nonces_scheduled {F : Type} (E : Ext F) (sched : List Nat) (t fuel : Nat)
    (s : St F) (len d : Nat) (ret : Int) (path : Path) (s1 : St F)
    (hview : ∀ k, E.others (s.fetches + k) = others_of t sched k)
    (hc : s.atomic_nonce < 4294967296)
    (h : do_hashing E fuel s len d = some (ret, path, s1)) :
    ∃ new : List Nat, s1.submitted = s.submitted ++ new ∧
      ∀ (j n : Nat), new[j]? = some n → j < sched.count t →
        (issue_nonces sched s.atomic_nonce)[request_position (others_of t sched) j]?
          = some (t, n) := by
  obtain ⟨m, hm⟩ := do_hashing_nonces E fuel s len d ret path s1 hc h
  have hfun : (fun k => E.others (s.fetches + k)) = others_of t sched := funext hview
  rw [hfun] at hm
  refine ⟨_, hm, ?_⟩
  intro j n hj hcount
  have hjm : j < m := by
    have := (List.getElem?_eq_some.mp hj).1
    simpa using this
  rw [List.getElem?_map, List.getElem?_range hjm] at hj
  simp only [Option.map_some', Option.some.injEq] at hj
  rw [← hj]
  exact issue_nonces_get sched _ _ t hc (request_position_owner t sched j hcount)

/-! ## Nonce sequencer: the claim -/

/-- C4: for every interleaving of `fetch_add` requests on the shared counter, the i-th
request (whichever search loop issues it) receives `(1 + i) mod 2^32`, so the first
receives 1 and each later one the previous value plus one modulo 2^32, and any two
requests less than 2^32 places apart receive distinct values. Every call of `do_hashing`
taking part in the interleaving as search loop `t` writes into its blob, at its request
`j`, exactly the value handed to `t` at the place of that request; hence within an
interleaving of at most 2^32 requests two different search loops never write the same
nonce, and one search loop never writes a nonce twice. -/
theorem atomic_nonce_unique (sched : List Nat) :
    (issue_nonces sched atomic_nonce_init).length = sched.length ∧
    (∀ i, i < sched.length →
      ((issue_nonces sched atomic_nonce_init)[i]?).map Prod.snd
        = some ((1 + i) % 4294967296)) ∧
    (sched ≠ [] → ((issue_nonces sched atomic_nonce_init).head?).map Prod.snd = some 1) ∧
    (∀ i a b, i + 1 < sched.length →
      ((issue_nonces sched atomic_nonce_init)[i]?).map Prod.snd = some a →
      ((issue_nonces sched atomic_nonce_init)[i + 1]?).map Prod.snd = some b →
      b = (a + 1) % 4294967296) ∧
    (∀ i j a b, i < j → j < sched.length → j - i < 4294967296 →
      ((issue_nonces sched atomic_nonce_init)[i]?).map Prod.snd = some a →
      ((issue_nonces sched atomic_nonce_init)[j]?).map Prod.snd = some b →
      a ≠ b) ∧
    (∀ (F : Type) (E : Ext F) (t fuel : Nat) (s : St F) (len d : Nat) (ret : Int)
      (path : Path) (s1 : St F),
      (∀ k, E.others (s.fetches + k) = others_of t sched k) →
      s.atomic_nonce = atomic_nonce_init →
      do_hashing E fuel s len d = some (ret, path, s1) →
      ∃ new : List Nat, s1.submitted = s.submitted ++ new ∧
        (∀ (j n : Nat), new[j]? = some n → j < sched.count t →
          (issue_nonces sched atomic_nonce_init)[request_position (others_of t sched) j]?
            = some (t, n)) ∧
        (new.length ≤ sched.count t → sched.length ≤ 4294967296 → new.Nodup)) ∧
    (∀ (F G : Type) (E : Ext F) (E2 : Ext G) (t u fuel fuel2 : Nat) (s : St F) (s2 : St G)
      (len len2 d d2 : Nat) (ret ret2 : Int) (path path2 : Path) (s1 : St F) (s3 : St G)
      (new new2 : List Nat),
      t ≠ u →
      (∀ k, E.others (s.fetches + k) = others_of t sched k) →
      (∀ k, E2.others (s2.fetches + k) = others_of u sched k) →
      s.atomic_nonce = atomic_nonce_init → s2.atomic_nonce = atomic_nonce_init →
      do_hashing E fuel s len d = some (ret, path, s1) →
      do_hashing E2 fuel2 s2 len2 d2 = some (ret2, path2, s3) →
      s1.submitted = s.submitted ++ new → s3.submitted = s2.submitted ++ new2 →
      new.length ≤ sched.count t → new2.length ≤ sched.count u →
      sched.length ≤ 4294967296 →
      ∀ a ∈ new, ∀ b ∈ new2, a ≠ b) := by
  have hv := fun i => issue_nonces_value sched 1 i (by decide)
  -- two own requests of search loops sit at different places, hence differ in value
  have hdiff : ∀ (i1 i2 t1 t2 a b : Nat), i1 ≠ i2 → sched.length ≤ 4294967296 →
      (issue_nonces sched atomic_nonce_init)[i1]? = some (t1, a) →
      (issue_nonces sched atomic_nonce_init)[i2]? = some (t2, b) → a ≠ b := by
    intro i1 i2 t1 t2 a b hne hlen h1 h2
    have l1 : i1 < sched.length := by
      have := (List.getElem?_eq_some.mp h1).1
      rwa [issue_nonces_length] at this
    have l2 : i2 < sched.length := by
      have := (List.getElem?_eq_some.mp h2).1
      rwa [issue_nonces_length] at this
    have v1 := hv i1 l1
    have v2 := hv i2 l2
    simp only [atomic_nonce_init] at h1 h2
    rw [h1] at v1
    rw [h2] at v2
    simp only [Option.map_some', Option.some.injEq] at v1 v2
    omega
  refine ⟨issue_nonces_length sched _, fun i hi => hv i hi, ?_, ?_, ?_, ?_, ?_⟩
  · intro hne
    cases sched with
    | nil => exact absurd rfl hne
    | cons t sched => simp [issue_nonces, atomic_fetch_add, atomic_nonce_init]
  · intro i a b hi ha hb
    have h1 := hv i (by omega)
    have h2 := hv (i + 1) hi
    simp only [atomic_nonce_init] at ha hb
    rw [h1] at ha
    rw [h2] at hb
    simp only [Option.some.injEq] at ha hb
    omega
  · intro i j a b hij hj hd ha hb
    have h1 := hv i (by omega)
    have h2 := hv j hj
    simp only [atomic_nonce_init] at ha hb
    rw [h1] at ha
    rw [h2] at hb
    simp only [Option.some.injEq] at ha hb
    omega
  · intro F E t fuel s len d ret path s1 hview hc h
    have hc1 : s.atomic_nonce < 4294967296 := by rw [hc]; decide
    obtain ⟨new, hnew, hval⟩ :=
      do_hashing_nonces_scheduled E sched t fuel s len d ret path s1 hview hc1 h
    rw [hc] at hval
    refine ⟨new, hnew, hval, ?_⟩
    intro hcover hlen
    rw [List.nodup_iff_injective_getElem]
    intro i j hij
    apply Fin.ext
    by_contra hne
    have hi := hval i.1 new[i.1] (List.getElem?_eq_getElem i.2) (by omega)
    have hj := hval j.1 new[j.1] (List.getElem?_eq_getElem j.2) (by omega)
    have hpos : request_position (others_of t sched) i.1
        ≠ request_position (others_of t sched) j.1 := by
      rcases Nat.lt_or_gt_of_ne hne with hlt | hlt
      · exact Nat.ne_of_lt (request_position_lt _ _ _ hlt)
      · exact Nat.ne_of_gt (request_position_lt _ _ _ hlt)
    exact hdiff _ _ _ _ _ _ hpos hlen hi hj hij
  · intro F G E E2 t u fuel fuel2 s s2 len len2 d d2 ret ret2 path path2 s1 s3 new new2 htu
      hview hview2 hc hc2 h h2 hnew hnew2 hcover hcover2 hlen a ha b hb
    have hc1 : s.atomic_nonce < 4294967296 := by rw [hc]; decide
    have hc3 : s2.atomic_nonce < 4294967296 := by rw [hc2]; decide
    obtain ⟨n1, e1, hval⟩ :=
      do_hashing_nonces_scheduled E sched t fuel s len d ret path s1 hview hc1 h
    obtain ⟨n2, e2, hval2⟩ :=
      do_hashing_nonces_scheduled E2 sched u fuel2 s2 len2 d2 ret2 path2 s3 hview2 hc3 h2
    have en1 : n1 = new := List.append_cancel_left (e1.symm.trans hnew)
    have en2 : n2 = new2 := List.append_cancel_left (e2.symm.trans hnew2)
    subst en1 en2
    rw [hc] at hval
    rw [hc2] at hval2
    obtain ⟨i, hi, hia⟩ := List.getElem_of_mem ha
    obtain ⟨j, hj, hjb⟩ := List.getElem_of_mem hb
    have q1 := hval i a (by rw [List.getElem?_eq_getElem hi, hia]) (by omega)
    have q2 := hval2 j b (by rw [List.getElem?_eq_getElem hj, hjb]) (by omega)
    have hpos : request_position (others_of t sched) i
        ≠ request_position (others_of u sched) j := by
      intro heq
      rw [heq, q2] at q1
      simp only [Option.some.injEq, Prod.mk.injEq] at q1
      exact htu q1.1.symm
    exact hdiff _ _ _ _ _ _ hpos hlen q1 q2

/-- C4, instance: in the interleaving 0, 1, 1, 0 of two search loops on the toy
environment, loop 0 writes the nonces 1 and 4, loop 1 writes 2 and 3, and no nonce of
one is a nonce of the other. -/
theorem atomic_nonce_unique_witness :
    issue_nonces [0, 1, 1, 0] atomic_nonce_init = [(0, 1), (1, 2), (1, 3), (0, 4)] ∧
    (do_hashing (demo_ext_sched 0 0 [0, 1, 1, 0] 0) 1 demo_state 43 1).map
      (fun r => r.2.2.submitted) = some [1, 4] ∧
    (do_hashing (demo_ext_sched 0 0 [0, 1, 1, 0] 1) 1 demo_state 43 1).map
      (fun r => r.2.2.submitted) = some [2, 3] ∧
    ∀ a ∈ [1, 4], ∀ b ∈ [2, 3], a ≠ b :=
  ⟨rfl, rfl, rfl,
    (atomic_nonce_unique [0, 1, 1, 0]).2.2.2.2.2.2 Nat Nat
      (demo_ext_sched 0 0 [0, 1, 1, 0] 0) (demo_ext_sched 0 0 [0, 1, 1, 0] 1) 0 1 1 1
      demo_state demo_state 43 43 1 1 (-2) (-2) Path.stopped Path.stopped _ _ [1, 4] [2, 3]
      (by decide) (fun k => by simp [demo_ext_sched, demo_state])
      (fun k => by simp [demo_ext_sched, demo_state]) rfl rfl rfl rfl rfl rfl (by decide)
      (by decide) (by decide)⟩

/-! ## Seeding: helper lemmas -/

theorem seed_loop_eq (q r K : Nat) (hbound : K * q + r < 4294967296) :
    ∀ (n i : Nat) (thread : List (Nat × Nat)), i + n = K →
      seed_loop q r (K : Int) n (i : Int) (i * q) thread
        = thread ++ (List.range' i n).map
            (fun j => (j * q, if j + 1 = K then q + r else q)) := by
  intro n
  induction n with
  | zero => intro i thread _; simp [seed_loop]
  | succ n ih =>
    intro i thread hi
    have hle : (i + 1) * q ≤ K * q := Nat.mul_le_mul_right q (by omega)
    have hexp : (i + 1) * q = i * q + q := by ring
    simp only [seed_loop, List.range'_succ, List.map_cons]
    cases n with
    | zero =>
      have h1 : i + 1 = K := by omega
      have h2 : (i : Int) = (K : Int) - 1 := by omega
      have h3 : (q + r) % 4294967296 = q + r := Nat.mod_eq_of_lt (by omega)
      simp [seed_loop, h1, h2, h3]
    | succ n =>
      have h1 : ¬ i + 1 = K := by omega
      have h2 : ¬ (i : Int) = (K : Int) - 1 := by omega
      have h3 : q % 4294967296 = q := Nat.mod_eq_of_lt (by omega)
      have h4 : (i * q + q) % 4294967296 = (i + 1) * q := by
        rw [← hexp]; exact Nat.mod_eq_of_lt (by omega)
      simp only [h1, h2, if_false, Nat.add_zero, h3, h4]
      have := ih (i + 1) (thread ++ [(i * q, q)]) (by omega)
      simp only [Nat.cast_add, Nat.cast_one] at this
      rw [this]
      simp

theorem run_init_calls_apply {C α : Type} (item : C → Nat → α) (cache : C)
    (calls : List (Nat × Nat)) :
    ∀ (mem : Nat → α) (x : Nat),
      ((∃ c ∈ calls, c.1 ≤ x ∧ x < c.1 + c.2) →
        run_init_calls item cache calls mem x = item cache x) ∧
      ((¬ ∃ c ∈ calls, c.1 ≤ x ∧ x < c.1 + c.2) →
        run_init_calls item cache calls mem x = mem x) := by
  induction calls with
  | nil =>
    intro mem x
    simp [run_init_calls]
  | cons c cs ih =>
    intro mem x
    have h := ih (randomx_init_dataset item mem cache c.1 c.2) x
    simp only [run_init_calls, List.foldl_cons] at h ⊢
    by_cases hcs : ∃ c1 ∈ cs, c1.1 ≤ x ∧ x < c1.1 + c1.2
    · constructor
      · intro _; exact h.1 hcs
      · intro hn
        obtain ⟨c1, hm, hx⟩ := hcs
        exact absurd ⟨c1, List.mem_cons_of_mem _ hm, hx⟩ hn
    · rw [h.2 hcs]
      constructor
      · rintro ⟨c1, hm, hx⟩
        rcases List.mem_cons.mp hm with hm | hm
        · subst hm
          simp [randomx_init_dataset, hx]
        · exact absurd ⟨c1, hm, hx⟩ hcs
      · intro hn
        have : ¬ (c.1 ≤ x ∧ x < c.1 + c.2) := fun hx => hn ⟨c, List.mem_cons_self _ _, hx⟩
        simp [randomx_init_dataset, this]

theorem spec_chunks_get (items k j : Nat) (hj : j < k) :
    (spec_chunks items k)[j]? =
      some (j * (items / k), if j + 1 = k then items / k + items % k else items / k) := by
  simp [spec_chunks, List.getElem?_map, List.getElem?_range hj]

theorem spec_chunks_cover (items k : Nat) (hk : 1 ≤ k) (x : Nat) :
    x < items ↔ ∃ c ∈ spec_chunks items k, c.1 ≤ x ∧ x < c.1 + c.2 := by
  have hdm : k * (items / k) + items % k = items := Nat.div_add_mod items k
  have hlast : (k - 1) * (items / k) + (items / k + items % k) = items := by
    have : k = (k - 1) + 1 := by omega
    calc (k - 1) * (items / k) + (items / k + items % k)
        = ((k - 1) + 1) * (items / k) + items % k := by ring
      _ = k * (items / k) + items % k := by rw [← this]
      _ = items := hdm
  constructor
  · intro hx
    by_cases hlow : x < (k - 1) * (items / k)
    · have hq : 0 < items / k := by
        rcases Nat.eq_zero_or_pos (items / k) with h0 | h0
        · rw [h0] at hlow; simp at hlow
        · exact h0
      have hxj : x / (items / k) < k - 1 := by
        rw [Nat.div_lt_iff_lt_mul hq]; exact hlow
      refine ⟨(x / (items / k) * (items / k), items / k), ?_, ?_, ?_⟩
      · simp only [spec_chunks, List.mem_map, List.mem_range]
        refine ⟨x / (items / k), by omega, ?_⟩
        have : ¬ x / (items / k) + 1 = k := by omega
        simp [this]
      · exact Nat.div_mul_le_self x (items / k)
      · have := Nat.div_add_mod x (items / k)
        have hm := Nat.mod_lt x hq
        have hc : x / (items / k) * (items / k) = items / k * (x / (items / k)) := Nat.mul_comm _ _
        simp only
        omega
    · refine ⟨((k - 1) * (items / k), items / k + items % k), ?_, ?_, ?_⟩
      · simp only [spec_chunks, List.mem_map, List.mem_range]
        refine ⟨k - 1, by omega, ?_⟩
        have : k - 1 + 1 = k := by omega
        simp [this]
      · simp only; omega
      · simp only; omega
  · rintro ⟨c, hm, h1, h2⟩
    simp only [spec_chunks, List.mem_map, List.mem_range] at hm
    obtain ⟨j, hj, rfl⟩ := hm
    simp only at h1 h2
    by_cases hjk : j + 1 = k
    · have : j = k - 1 := by omega
      subst this
      simp only [hjk, if_true] at h2
      omega
    · simp only [hjk, if_false] at h2
      have hle : (j + 1) * (items / k) ≤ k * (items / k) := Nat.mul_le_mul_right _ (by omega)
      have hexp : (j + 1) * (items / k) = j * (items / k) + items / k := by ring
      omega


theorem toUInt32_natCast (k : Nat) (h : k < 4294967296) : toUInt32 (k : Int) = k := by
  unfold toUInt32
  omega

theorem toUInt32_neg (i : Int) (h0 : i < 0) (h1 : -2147483648 ≤ i) :
    (toUInt32 i : Int) = 4294967296 + i := by
  unfold toUInt32
  omega

/-! ## Seeding: the claims -/

/-- C5: for every item count and every `init_threads = k >= 1`, with the cache
allocated, `seed_rxlib` returns true and the ranges it passes to `randomx_init_dataset`
are the `k` chunks of the specification: each of `items / k` items, the last with the
remainder added; the first starts at 0, each next one starts where the previous ends,
the last ends at `items`, earlier chunks end before later ones start, and an item lies
in some chunk exactly when it is below `items`. The resulting dataset is the one produced
with `init_threads = 1`, and it is the same in whatever order the workers run. -/
theorem seed_rxlib_chunks {C α : Type} (X : SeedExt C α) (mem : Nat → α) (seed_hash : Bytes)
    (len k : Nat) (cache0 : C) (hk : 1 ≤ k) (hint : k < 2147483648)
    (hc : X.alloc_cache = some cache0) :
    ∃ r : SeedResult α,
      seed_rxlib X mem seed_hash len (k : Int) = some r ∧ r.ret = true ∧
      r.calls = spec_chunks (X.item_count % 4294967296) k ∧
      r.calls.length = k ∧
      (r.calls.head?).map Prod.fst = some 0 ∧
      (∀ (j : Nat) (c1 c2 : Nat × Nat), r.calls[j]? = some c1 → r.calls[j + 1]? = some c2 → c2.1 = c1.1 + c1.2) ∧
      (r.calls.getLast?).map (fun c => c.1 + c.2) = some (X.item_count % 4294967296) ∧
      (∀ (i j : Nat) (ci cj : Nat × Nat), i < j → r.calls[i]? = some ci → r.calls[j]? = some cj →
        ci.1 + ci.2 ≤ cj.1) ∧
      (∀ x, x < X.item_count % 4294967296 ↔ ∃ c ∈ r.calls, c.1 ≤ x ∧ x < c.1 + c.2) ∧
      (∃ r1 : SeedResult α, seed_rxlib X mem seed_hash len 1 = some r1 ∧ r.mem = r1.mem) ∧
      (∀ p : List (Nat × Nat), p.Perm r.calls →
        run_init_calls X.item (X.init_cache cache0 (seed_hash.take len)) p mem = r.mem) := by
  generalize hitems : X.item_count % 4294967296 = items
  have hlt : items < 4294967296 := by rw [← hitems]; exact Nat.mod_lt _ (by decide)
  have hdm : k * (items / k) + items % k = items := Nat.div_add_mod items k
  -- the parallel branch and the single call agree on the ranges
  have hcalls : ∃ r : SeedResult α, seed_rxlib X mem seed_hash len (k : Int) = some r ∧
      r.ret = true ∧ r.calls = spec_chunks items k ∧
      r.mem = run_init_calls X.item (X.init_cache cache0 (seed_hash.take len))
        (spec_chunks items k) mem := by
    by_cases h1 : k = 1
    · subst h1
      have e1 : spec_chunks items 1 = [(0, items)] := by
        simp [spec_chunks, List.range_succ, Nat.mod_one]
      rw [e1]
      refine ⟨⟨true, randomx_init_dataset X.item mem (X.init_cache cache0 (seed_hash.take len)) 0
        items, [(0, items)]⟩, ?_, rfl, rfl, ?_⟩
      · simp only [seed_rxlib, hc, hitems, Nat.cast_one, if_true]
      · simp [run_init_calls]
    · have hne : ¬ ((k : Int) = 1) := by omega
      have hu : toUInt32 (k : Int) = k := toUInt32_natCast k (by omega)
      have hu0 : ¬ k = 0 := by omega
      have hloop := seed_loop_eq (items / k) (items % k) k (by omega) k 0 [] (by omega)
      simp only [Nat.cast_zero, Nat.zero_mul, List.nil_append] at hloop
      have hsc : (List.range' 0 k).map
          (fun j => (j * (items / k), if j + 1 = k then items / k + items % k else items / k))
          = spec_chunks items k := by
        simp [spec_chunks, List.range_eq_range']
      rw [hsc] at hloop
      refine ⟨⟨true, run_init_calls X.item (X.init_cache cache0 (seed_hash.take len))
        (spec_chunks items k) mem, spec_chunks items k⟩, ?_, rfl, rfl, rfl⟩
      simp only [seed_rxlib, hc, hitems, hne, if_false, hu, hu0, Int.toNat_ofNat, hloop]
  obtain ⟨r, hr, hret, hcs, hmem⟩ := hcalls
  have hmemeq : r.mem = randomx_init_dataset X.item mem
      (X.init_cache cache0 (seed_hash.take len)) 0 items := by
    rw [hmem]
    funext x
    have h := run_init_calls_apply X.item (X.init_cache cache0 (seed_hash.take len))
      (spec_chunks items k) mem x
    by_cases hx : x < items
    · rw [h.1 ((spec_chunks_cover items k hk x).mp hx)]
      simp [randomx_init_dataset, hx]
    · rw [h.2 (fun he => hx ((spec_chunks_cover items k hk x).mpr he))]
      simp [randomx_init_dataset, hx]
  refine ⟨r, hr, hret, hcs, ?_, ?_, ?_, ?_, ?_, ?_, ?_, ?_⟩
  · rw [hcs]; simp [spec_chunks]
  · rw [hcs]
    obtain ⟨k1, rfl⟩ : ∃ k1, k = k1 + 1 := ⟨k - 1, by omega⟩
    simp [spec_chunks, List.range_succ_eq_map]
  · intro j c1 c2 h1 h2
    rw [hcs] at h1 h2
    have hj : j + 1 < k := by
      have := (List.getElem?_eq_some.mp h2).1
      simpa [spec_chunks] using this
    rw [spec_chunks_get items k j (by omega)] at h1
    rw [spec_chunks_get items k (j + 1) hj] at h2
    have hjk : ¬ j + 1 = k := by omega
    simp only [hjk, if_false, Option.some.injEq] at h1 h2
    subst h1 h2
    simp only
    ring
  · rw [hcs]
    have h1 := spec_chunks_get items k (k - 1) (by omega)
    have hk1 : k - 1 + 1 = k := by omega
    simp only [hk1, if_true] at h1
    have hlen : (spec_chunks items k).length = k := by simp [spec_chunks]
    rw [List.getLast?_eq_getElem?, hlen, h1]
    simp only [Option.map_some', Option.some.injEq]
    have hexp : (k - 1) * (items / k) + (items / k + items % k)
        = (k - 1 + 1) * (items / k) + items % k := by ring
    rw [hexp, hk1]
    exact hdm
  · intro i j ci cj hij h1 h2
    rw [hcs] at h1 h2
    have hj : j < k := by
      have := (List.getElem?_eq_some.mp h2).1
      simpa [spec_chunks] using this
    rw [spec_chunks_get items k i (by omega)] at h1
    rw [spec_chunks_get items k j hj] at h2
    have hik : ¬ i + 1 = k := by omega
    simp only [hik, if_false, Option.some.injEq] at h1
    simp only [Option.some.injEq] at h2
    subst h1 h2
    simp only
    have hle : (i + 1) * (items / k) ≤ j * (items / k) := Nat.mul_le_mul_right _ (by omega)
    have hexp : (i + 1) * (items / k) = i * (items / k) + items / k := by ring
    omega
  · intro x
    rw [hcs]
    exact spec_chunks_cover items k hk x
  · refine ⟨⟨true, randomx_init_dataset X.item mem (X.init_cache cache0 (seed_hash.take len)) 0
      items, [(0, items)]⟩, ?_, hmemeq⟩
    simp only [seed_rxlib, hc, hitems, if_true]
  · intro p hp
    rw [hmemeq]
    funext x
    have h := run_init_calls_apply X.item (X.init_cache cache0 (seed_hash.take len)) p mem x
    have hiff : (∃ c ∈ p, c.1 ≤ x ∧ x < c.1 + c.2) ↔ x < items := by
      rw [spec_chunks_cover items k hk x, ← hcs]
      constructor
      · rintro ⟨c, hm, hx⟩; exact ⟨c, hp.mem_iff.mp hm, hx⟩
      · rintro ⟨c, hm, hx⟩; exact ⟨c, hp.mem_iff.mpr hm, hx⟩
    by_cases hx : x < items
    · rw [h.1 (hiff.mpr hx)]
      simp [randomx_init_dataset, hx]
    · rw [h.2 (fun he => hx (hiff.mp he))]
      simp [randomx_init_dataset, hx]


/-- C5, instance: ten items over three workers are split as (0,3), (3,3), (6,4). -/
theorem seed_rxlib_chunks_witness :
    ∃ r : SeedResult Nat,
      seed_rxlib (demo_seed_ext true) (fun _ => 0) [7] 1 ((3 : Nat) : Int) = some r ∧
      r.calls = [(0, 3), (3, 3), (6, 4)] :=
  match seed_rxlib_chunks (demo_seed_ext true) (fun _ => 0) [7] 1 3 0 (by decide) (by decide)
    rfl with
  | ⟨r, h1, _, h3, _⟩ => ⟨r, h1, h3.trans (by decide)⟩

/-- C10: for every negative `init_threads` (an `int`) with the cache allocated,
`seed_rxlib` returns true having made no `randomx_init_dataset` call and leaving the
dataset memory as it was; the divisor of the per-chunk size is `init_threads` read as
`uint32_t`, at least 2^31, so that size is 0 for every item count below 2^31. For every
`init_threads`, `seed_rxlib` returns false exactly when the cache allocation fails, and
then the dataset is not touched. -/
theorem seed_rxlib_negative_threads {C α : Type} (X : SeedExt C α) (mem : Nat → α)
    (seed_hash : Bytes) (len : Nat) (init_threads : Int) :
    (init_threads < 0 → -2147483648 ≤ init_threads → X.alloc_cache ≠ none →
      seed_rxlib X mem seed_hash len init_threads = some ⟨true, mem, []⟩ ∧
      2147483648 ≤ toUInt32 init_threads ∧
      (X.item_count % 4294967296 < 2147483648 →
        X.item_count % 4294967296 / toUInt32 init_threads = 0)) ∧
    ((∃ r : SeedResult α, seed_rxlib X mem seed_hash len init_threads = some r ∧ r.ret = false)
      ↔ X.alloc_cache = none) ∧
    (X.alloc_cache = none →
      seed_rxlib X mem seed_hash len init_threads = some ⟨false, mem, []⟩) := by
  refine ⟨?_, ?_, ?_⟩
  · intro h0 h1 hc
    have hu := toUInt32_neg init_threads h0 h1
    have hne1 : ¬ init_threads = 1 := by omega
    have hu0 : ¬ toUInt32 init_threads = 0 := by omega
    have htn : init_threads.toNat = 0 := by omega
    refine ⟨?_, by omega, fun hi => Nat.div_eq_of_lt (by omega)⟩
    cases hcache : X.alloc_cache with
    | none => exact absurd hcache hc
    | some cache0 =>
      simp only [seed_rxlib, hcache, hne1, if_false, hu0, htn, seed_loop, run_init_calls,
        List.foldl_nil]
  · constructor
    · rintro ⟨r, hr, hret⟩
      cases hcache : X.alloc_cache with
      | none => rfl
      | some cache0 =>
        exfalso
        simp only [seed_rxlib, hcache] at hr
        by_cases h1 : init_threads = 1
        · simp only [h1, if_true, Option.some.injEq] at hr
          rw [← hr] at hret
          cases hret
        · by_cases h2 : toUInt32 init_threads = 0
          · simp [h1, h2] at hr
          · simp only [h1, h2, if_false, Option.some.injEq] at hr
            rw [← hr] at hret
            cases hret
    · intro hcache
      exact ⟨⟨false, mem, []⟩, by simp only [seed_rxlib, hcache], rfl⟩
  · intro hcache
    simp only [seed_rxlib, hcache]

/-- C10, instance: `seed_rxlib` with `init_threads = -1` on the toy RandomX. -/
theorem seed_rxlib_negative_threads_witness :
    (seed_rxlib (demo_seed_ext true) (fun _ => 0) [7] 1 (-1)).map (fun r => (r.ret, r.calls))
      = some (true, []) ∧
    toUInt32 (-1) = 4294967295 ∧
    seed_rxlib (demo_seed_ext true) (fun _ => 0) [7] 1 (-1) = some ⟨true, fun _ => 0, []⟩ :=
  ⟨rfl, by decide,
    ((seed_rxlib_negative_threads (demo_seed_ext true) (fun _ => 0) [7] 1 (-1)).1 (by decide)
      (by decide) (by simp [demo_seed_ext])).1⟩

end Rxlib
